import Mathlib

/-!
Verification of the working-tree comparison engine of `win-git-status`.

This file is a shallow embedding of the Rust sources:

* `src/index.rs`    — the index-file decoder (`Index::new`, `Index::read_header`,
  `Index::read_entry`, `Index::get_directory_entry`, `parse_name_size`);
* `src/worktree.rs` — the parallel working-tree diff (`read_dir`,
  `WorkTree::diff_against_index`, `process_directory`, `get_file_deltas`,
  `process_deleted_item`, `process_new_item`, `is_ignored`,
  `directory_has_one_trackable_file`, `submodule_spawned_status`,
  `process_tracked_item`, `get_relative_entry_path_name`, `update_ignores`);
* `src/dirstat.rs`  — the Windows batched directory-stat provider
  (`DirectoryStat::windows_time_to_git_time`, size truncation).

Modelling conventions:

* Rust `String` values are modelled as `List Nat` of their UTF-8 bytes;
  Rust's `String`/`str` comparison is byte-wise lexicographic, which is the
  lexicographic order on these lists.  All concrete inputs below are ASCII,
  where the byte list is the list of character codes.
* Machine integers are `Nat` (or `Int` for Rust `i64`) with explicit
  `% 2^32` at the points where the source casts with `as u32`.
* Panics (`unwrap()` on an `Err`/`None`) are modelled as `Except.error ()`;
  fallible computations live in `Except Unit`.
* The filesystem seen by the walker is a tree value (`FSNode`); an unreadable
  directory (`fs::read_dir` returning `Err`) is the node `FSNode.errDir`.
* The external `ignore` crate's compiled `Gitignore` matcher is modelled as an
  opaque-to-us function `Matcher : List Nat → Bool → MatchResult` standing for
  `Gitignore::matched_path_or_any_parents(name, is_dir)`; the builder that
  compiles a `.gitignore` file is external, so a directory node carries the
  compiled matcher directly.
* The walk is deterministic: `rayon::Scope::spawn` tasks are run depth-first at
  their spawn point, which is one legal schedule of the real program.
-/

set_option linter.unusedVariables false

namespace WinGitStatus

/-- Byte string of an ASCII Lean string: the UTF-8 bytes of the Rust `String`. -/
def strBytes (s : String) : List Nat := s.data.map Char.toNat

/-- Byte-wise lexicographic strict order on byte strings; this is exactly the
order of Rust's `Ord for String` (`cmp` on the underlying UTF-8 bytes), which
`files.sort_by(|a, b| a.name.cmp(&b.name))` and the two-pointer merge use. -/
def bytesLt : List Nat → List Nat → Bool
  | [], [] => false
  | [], _ :: _ => true
  | _ :: _, [] => false
  | a :: as, b :: bs => if a < b then true else if b < a then false else bytesLt as bs

/-- The three-way comparison `a.cmp(&b)` on byte strings. -/
def cmpBytes : List Nat → List Nat → Ordering
  | [], [] => .eq
  | [], _ :: _ => .lt
  | _ :: _, [] => .gt
  | a :: as, b :: bs => if a < b then .lt else if b < a then .gt else cmpBytes as bs

/-- `FileStat` of `src/direntry.rs` (the revision used by `index.rs`, which
stores `mtime` as the `u128` returned by `Duration::as_nanos`; the walker
revision stores whole seconds in the same field — see the C2 theorems). -/
structure FileStat where
  mtime : Nat
  size : Nat
  deriving DecidableEq, Repr

/-- `ObjectType` of `src/direntry.rs`, derived from the index entry's mode. -/
inductive ObjectType where
  | Regular
  | SymLink
  | GitLink
  deriving DecidableEq, Repr

/-- `DirEntry` of `src/direntry.rs` as consumed by `index.rs`/`worktree.rs`:
object id, leaf name, cached stat and object type. -/
structure DirEntry where
  sha : List Nat
  name : List Nat
  stat : FileStat
  object_type : ObjectType
  deriving DecidableEq, Repr

/-- `Status` of `src/status.rs`.  `Modified` carries an optional detail byte
string.  (`src/worktree.rs` predates the payload and writes a bare
`Status::Modified`; under the current enum that is `Modified none`, the value
the formatter renders without a detail suffix.) -/
inductive Status where
  | Current
  | New
  | Modified (detail : Option (List Nat))
  | Deleted
  deriving DecidableEq, Repr

/-- `StatusEntry` of `src/status.rs`: an output row of the engine. -/
structure StatusEntry where
  name : List Nat
  state : Status
  deriving DecidableEq, Repr

/-- `StatusError` of `src/error.rs`: the structured error type of the crate. -/
structure StatusError where
  message : List Nat
  deriving DecidableEq, Repr

/-! ### C2: stat recording (worktree.rs `read_dir`, dirstat.rs, index.rs)

`worktree.rs` lines 61-68 record, for every entry returned by `fs::read_dir`:

    mtime: metadata.modified().duration_since(UNIX_EPOCH).as_secs() as u32,
    size:  metadata.len() as u32,

`dirstat.rs` records for every non-directory child:

    mtime = windows_time_to_git_time(LastWriteTime),
    size  = *EndOfFile.QuadPart() as u32,

and `index.rs` line 178 records `Duration::new(mtime_s, mtime_ns).as_nanos()`.
A filesystem timestamp is modelled as seconds plus nanoseconds past the Unix
epoch. -/

/-- The `mtime` recorded by the portable walker (`worktree.rs` `read_dir`) for
a file modified `secs` seconds + `ns` nanoseconds after the Unix epoch:
`as_secs()` discards the nanoseconds and `as u32` truncates. -/
def read_dir_mtime (secs ns : Nat) : Nat := secs % 4294967296

/-- The `size` recorded by the portable walker: `metadata.len() as u32`. -/
def read_dir_size (len : Nat) : Nat := len % 4294967296

/-- `DirectoryStat::windows_time_to_git_time` (dirstat.rs lines 123-128):

    let mut windows_time = *time.QuadPart();     // i64, 100ns ticks since 1601
    windows_time -= 116444736000000000;          // Windows to Unix epoch
    windows_time /= 10000000;                    // i64 division, toward zero
    windows_time as u32

`Int.tdiv` is Rust's `i64` division (truncation toward zero) and
`% 4294967296` (`Int.emod`) the low 32 bits taken by `as u32`. -/
def windows_time_to_git_time (time : Int) : Nat :=
  (((time - 116444736000000000).tdiv 10000000) % 4294967296).toNat

/-- The `size` recorded by the Windows batched path:
`*file_info.EndOfFile.QuadPart() as u32` (an `i64` truncated to 32 bits). -/
def windows_size (quadPart : Int) : Nat := (quadPart % 4294967296).toNat

/-- The `mtime` the index decoder stores (`index.rs` line 178):
`Duration::new(mtime_s.into(), mtime_ns).as_nanos()` — nanoseconds since the
Unix epoch at full precision. -/
def index_entry_mtime (mtime_s mtime_ns : Nat) : Nat :=
  mtime_s * 1000000000 + mtime_ns

/-! ### Index decoder (src/index.rs)

Byte streams are `List Nat` with each element a byte value.  The `nom`
combinators used by `read_entry`/`read_header` are modelled directly:
a parser consumes a prefix and returns the value plus the remaining stream,
or `none` on a parse error (which `Index::new` surfaces as a `StatusError`). -/

/-- `nom::number::complete::be_u16`. -/
def be_u16 : List Nat → Option (Nat × List Nat)
  | b0 :: b1 :: rest => some (b0 * 256 + b1, rest)
  | _ => none

/-- `nom::number::complete::be_u32`. -/
def be_u32 : List Nat → Option (Nat × List Nat)
  | b0 :: b1 :: b2 :: b3 :: rest =>
    some (((b0 * 256 + b1) * 256 + b2) * 256 + b3, rest)
  | _ => none

/-- `nom`'s `take!(n)`: the first `n` bytes and the rest, or `none` if the
stream is shorter than `n`. -/
def takeBytes : Nat → List Nat → Option (List Nat × List Nat)
  | 0, rest => some ([], rest)
  | _ + 1, [] => none
  | n + 1, b :: rest => (takeBytes n rest).map (fun p => (b :: p.1, p.2))

/-- `parse_name_size` (index.rs lines 59-68): reads the 16-bit flags field as
bits `2 + 2 + 12` and keeps only the low 12 bits (the name length); the
assume-valid/extended bits and the merge stage are discarded. -/
def parse_name_size : List Nat → Option (Nat × List Nat)
  | b0 :: b1 :: rest => some ((b0 % 16) * 256 + b1, rest)
  | _ => none

/-- The decoded index header (`Header` in index.rs). -/
structure Header where
  version : Nat
  entries : Nat
  deriving DecidableEq, Repr

/-- `Index::read_header`: the ASCII tag `DIRC` (bytes 68, 73, 82, 67) followed
by two big-endian `u32`s: version and entry count. -/
def read_header (stream : List Nat) : Option (Header × List Nat) :=
  match stream with
  | 68 :: 73 :: 82 :: 67 :: rest => do
    let (version, rest) ← be_u32 rest
    let (entries, rest) ← be_u32 rest
    some (⟨version, entries⟩, rest)
  | _ => none

/-- The byte is not the path separator `'/'` (byte 47). -/
def notSlash (b : Nat) : Bool := b != 47

/-- `Path::parent` / `Path::file_name` on a forward-slash byte path: split at
the last `'/'` (byte 47).  A name without a slash has parent `[]` (the root
directory key `""`). -/
def splitPath (full : List Nat) : List Nat × List Nat :=
  match full.reverse.dropWhile notSlash with
  | [] => ([], full)
  | _ :: parentR => (parentR.reverse, (full.reverse.takeWhile notSlash).reverse)

/-- The iteration of `Path::ancestors`, written with explicit fuel so that it
is structurally recursive (and therefore computes definitionally); each step
strictly shortens the path, so `d.length + 1` steps always suffice. -/
def ancestorsFuel : Nat → List Nat → List (List Nat)
  | 0, _ => []
  | fuel + 1, d => if d = [] then [[]] else d :: ancestorsFuel fuel (splitPath d).1

/-- `Path::ancestors` on a forward-slash byte path: the path, then each parent
up to and including the root `""`. -/
def ancestorsOf (d : List Nat) : List (List Nat) :=
  ancestorsFuel (d.length + 1) d

/-- The `HashMap<String, Vec<DirEntry>>` of `Index`, as an association list
(lookup is by key; the list order of distinct keys is never observed). -/
abbrev IndexMap := List (List Nat × List DirEntry)

/-- `HashMap::get`. -/
def lookupA : IndexMap → List Nat → Option (List DirEntry)
  | [], _ => none
  | (k, v) :: rest, d => if k = d then some v else lookupA rest d

/-- Replace the value stored at key `d` (no-op when the key is absent). -/
def updateA : IndexMap → List Nat → List DirEntry → IndexMap
  | [], _, _ => []
  | (k, v) :: rest, d, nv =>
    if k = d then (k, nv) :: rest else (k, v) :: updateA rest d nv

/-- `HashMap::entry(k).or_insert_with(Vec::new)` used for ancestor keys. -/
def insertIfAbsent (m : IndexMap) (d : List Nat) : IndexMap :=
  match lookupA m d with
  | some _ => m
  | none => m ++ [(d, [])]

/-- `Index::get_directory_entry` followed by the caller's
`directory_entry.push(entry)` (index.rs lines 107-111 and 189-207): fetch the
directory's list, creating it and every missing ancestor first, and append the
entry.  (After the ancestor insertion the key `d` is always present — `d` is
the head of its own ancestor list — so the `getD []` default is never used.) -/
def get_directory_entry_push (m : IndexMap) (d : List Nat) (e : DirEntry) : IndexMap :=
  match lookupA m d with
  | some v => updateA m d (v ++ [e])
  | none =>
    let m2 := (ancestorsOf d).foldl insertIfAbsent m
    updateA m2 d ((lookupA m2 d).getD [] ++ [e])

/-- `Index::read_entry` (index.rs lines 143-186): fixed-size prefix, flags,
name, padding to the next 8-byte boundary; the mode's top nibble selects the
object type; the full path splits into (parent directory, leaf name); the
mtime is `Duration::new(mtime_s, mtime_ns).as_nanos()`. -/
def read_entry (stream : List Nat) : Option ((List Nat × DirEntry) × List Nat) := do
  let (_, rest) ← takeBytes 8 stream
  let (mtime_s, rest) ← be_u32 rest
  let (mtime_ns, rest) ← be_u32 rest
  let (_, rest) ← takeBytes 10 rest
  let (mode, rest) ← be_u16 rest
  let (_, rest) ← takeBytes 8 rest
  let (size, rest) ← be_u32 rest
  let (sha, rest) ← takeBytes 20 rest
  let (name_size, rest) ← parse_name_size rest
  let (full_name, rest) ← takeBytes name_size rest
  let (_, rest) ← takeBytes (8 - (62 + name_size) % 8) rest
  let object_bits := mode / 4096
  let object_type : ObjectType :=
    if object_bits = 14 then .GitLink else if object_bits = 10 then .SymLink else .Regular
  let (parent_path, name) := splitPath full_name
  some ((parent_path, ⟨sha, name, ⟨index_entry_mtime mtime_s mtime_ns, size⟩, object_type⟩), rest)

/-- The entry-reading loop of `Index::new`: `header.entries` consecutive
`read_entry` calls, collecting the (directory, entry) pairs in stream order. -/
def read_entries : Nat → List Nat → Option (List (List Nat × DirEntry) × List Nat)
  | 0, s => some ([], s)
  | n + 1, s => do
    let (pe, s) ← read_entry s
    let (rest, s) ← read_entries n s
    some (pe :: rest, s)

/-- The map-building fold of `Index::new`: each decoded pair is pushed into
its directory's list as soon as it is read.  (Reading all pairs first and then
folding is the same computation in the same order.) -/
def buildMap (pairs : List (List Nat × DirEntry)) : IndexMap :=
  pairs.foldl (fun m pe => get_directory_entry_push m pe.1 pe.2) []

/-- The decoded `Index` (index.rs lines 80-86; `path` omitted, `oid` is always
the zero array at construction). -/
structure Index where
  oid : List Nat
  header : Header
  entries : IndexMap
  deriving Repr

/-- `Index::new` on the file's byte contents: decode the header, decode
`header.entries` entries, build the directory map.  Trailing bytes (extensions
and checksum) are ignored; a parse failure is `none` (a `StatusError`). -/
def indexNew (file : List Nat) : Option Index := do
  let (header, contents) ← read_header file
  let (pairs, _) ← read_entries header.entries contents
  some ⟨List.replicate 20 0, header, buildMap pairs⟩

/-! ### Working-tree walk (src/worktree.rs)

The filesystem is a tree value.  A directory node carries the compiled matcher
of its `.gitignore` (if that file exists — `update_ignores` checks existence
and the external `ignore` crate compiles it), the data the submodule probe
would obtain by opening a nested repository at this path (if it is openable),
the stat `fs::read_dir` reports for the directory entry itself, and its
children in on-disk order.  `errDir` is a directory whose `fs::read_dir`
fails.  The walk is run on the depth-first schedule: each `rayon` task is
executed at its spawn point. -/

/-- `ignore::Match` as observed through `is_whitelist()` / `is_ignore()`. -/
inductive MatchResult where
  | whitelist
  | ignored
  | unmatched
  deriving DecidableEq, Repr

/-- A compiled `Gitignore` matcher: `matched_path_or_any_parents(name, is_dir)`. -/
abbrev Matcher := List Nat → Bool → MatchResult

/-- The outcomes of the external computations `submodule_spawned_status`
performs on the nested repository at a probed path (worktree.rs lines
344-365): the nested repo's HEAD commit id, the entry list of
`TreeDiff::diff_against_index_with_repo` (its staged index-vs-HEAD diff) and
the entry list of the recursive `WorkTree::diff_against_index` run on the
nested repo's own working tree. -/
structure SubmoduleData where
  head_sha : List Nat
  index_diff : List StatusEntry
  worktree_diff : List StatusEntry

/-- A filesystem node as seen by the walker.  A directory's child sequence is
encoded inside the same inductive (`childNil` / `childCons` chains) rather
than as a nested `List`, so that every recursion over the tree is plainly
structural and computes definitionally; `chainOf` builds a chain from a list
and `FSNode.toListing` reads it back. -/
inductive FSNode where
  | file (stat : FileStat)
  | dir (gitignore : Option Matcher) (submod : Option SubmoduleData)
      (stat : FileStat) (children : FSNode)
  | errDir
  | childNil
  | childCons (name : List Nat) (node : FSNode) (rest : FSNode)

/-- Build a child chain from a (name, node) list. -/
def chainOf : List (List Nat × FSNode) → FSNode
  | [] => .childNil
  | (n, c) :: rest => .childCons n c (chainOf rest)

/-- Read a child chain back as the (name, node) list `fs::read_dir` yields,
in disk order. -/
def FSNode.toListing : FSNode → List (List Nat × FSNode)
  | .childCons n c rest => (n, c) :: rest.toListing
  | _ => []

/-- `entry.file_type().is_dir()`. -/
def FSNode.isDirNode : FSNode → Bool
  | .dir _ _ _ _ => true
  | .errDir => true
  | _ => false

/-- The `FileStat` recorded from `entry.metadata()` (worktree.rs lines 61-68).
For directories the walker records it but never reads it back, so the value
carried by `errDir` is irrelevant. -/
def FSNode.statOf : FSNode → FileStat
  | .file s => s
  | .dir _ _ s _ => s
  | _ => ⟨0, 0⟩

/-- `ReadDirEntry` of worktree.rs (lines 22-30); the `parent_path`/`depth`
pair is replaced by carrying the node itself plus, at each call site, the
directory's repository-relative path. -/
structure ReadDirEntry where
  name : List Nat
  is_dir : Bool
  process : Bool
  stat : FileStat
  node : FSNode

/-- Building one `ReadDirEntry` from a raw `fs::read_dir` result. -/
def toReadDirEntry (p : List Nat × FSNode) : ReadDirEntry :=
  ⟨p.1, p.2.isDirNode, true, p.2.statOf, p.2⟩

/-- Stable insertion into a name-sorted list. -/
def insertByName (e : ReadDirEntry) : List ReadDirEntry → List ReadDirEntry
  | [] => [e]
  | f :: fs => if bytesLt e.name f.name then e :: f :: fs else f :: insertByName e fs

/-- `files.sort_by(|a, b| a.name.cmp(&b.name))` (a stable sort, worktree.rs
line 76). -/
def sortByName : List ReadDirEntry → List ReadDirEntry
  | [] => []
  | e :: es => insertByName e (sortByName es)

/-- Join a repository-relative directory path and a leaf name with `'/'`
(the root directory is `""` = `[]`). -/
def joinRel (dirRel name : List Nat) : List Nat :=
  if dirRel = [] then name else dirRel ++ 47 :: name

/-- `get_relative_entry_path_name` (worktree.rs lines 234-239): the entry's
path relative to the walk root, with backslashes replaced by `'/'`.  With the
directory's relative path at hand this is a path join. -/
def get_relative_entry_path_name (dirRel name : List Nat) : List Nat :=
  joinRel dirRel name

/-- `update_ignores` (worktree.rs lines 157-166): when the directory has a
`.gitignore`, prepend its compiled matcher (`ignores.insert(0, ...)`). -/
def update_ignores (gitignore : Option Matcher) (ignores : List Matcher) : List Matcher :=
  match gitignore with
  | none => ignores
  | some m => m :: ignores

/-- The first-match-wins loop over the matcher chain shared by `is_ignored`
(worktree.rs lines 271-281) and the inner loop of
`directory_has_one_trackable_file` (lines 302-312): the first matcher
answering whitelist or ignore decides; otherwise fall through. -/
def chainMatch (ignores : List Matcher) (name : List Nat) (is_dir : Bool) : MatchResult :=
  match ignores with
  | [] => .unmatched
  | m :: rest =>
    match m name is_dir with
    | .whitelist => .whitelist
    | .ignored => .ignored
    | .unmatched => chainMatch rest name is_dir

/-- The per-file verdict of `directory_has_one_trackable_file`'s inner loop:
ignored iff the first deciding matcher says ignore. -/
def fileIgnored (ignores : List Matcher) (name : List Nat) : Bool :=
  match chainMatch ignores name false with
  | .ignored => true
  | _ => false

/-- `directory_has_one_trackable_file` (worktree.rs lines 293-321): scan the
directory's children in disk order; a non-directory child whose relative path
is not ignored makes the answer true; a directory child is searched
recursively.  `fs::read_dir(dir).unwrap()` panics when the read fails (on an
`errDir` and on a non-directory).  The chain constructors carry the
`for entry in fs::read_dir(dir)` loop. -/
def directory_has_one_trackable_file (ignores : List Matcher) :
    List Nat → FSNode → Except Unit Bool
  | _, .file _ => .error ()
  | _, .errDir => .error ()
  | relPath, .dir _ _ _ children => directory_has_one_trackable_file ignores relPath children
  | _, .childNil => .ok false
  | relPath, .childCons n (.file _) rest =>
    if fileIgnored ignores (joinRel relPath n) then
      directory_has_one_trackable_file ignores relPath rest
    else .ok true
  | relPath, .childCons n c rest => do
    let b ← directory_has_one_trackable_file ignores (joinRel relPath n) c
    if b then .ok true else directory_has_one_trackable_file ignores relPath rest

/-- `is_ignored` (worktree.rs lines 269-291): consult the chain first; for a
directory the chain's silence sends the walker looking for one trackable file
inside it. -/
def is_ignored (entry : ReadDirEntry) (name : List Nat) (ignores : List Matcher) :
    Except Unit Bool :=
  match chainMatch ignores name entry.is_dir with
  | .whitelist => .ok false
  | .ignored => .ok true
  | .unmatched =>
    if entry.is_dir then do
      let b ← directory_has_one_trackable_file ignores name entry.node
      .ok (!b)
    else .ok false

/-- `process_deleted_item` (worktree.rs lines 222-232): a missing submodule
(GitLink) is suppressed; anything else is Deleted under its **leaf** name
(`index_entry.name.to_string()`). -/
def process_deleted_item (index_entry : DirEntry) : Option StatusEntry :=
  if index_entry.object_type = .GitLink then none
  else some ⟨index_entry.name, .Deleted⟩

/-- `process_new_item` (worktree.rs lines 241-267).  Returns the emitted entry
(if any) together with the possibly updated `ReadDirEntry` (the `process`
flag is cleared for directories that are not index keys). -/
def process_new_item (entry : ReadDirEntry) (index : IndexMap) (ignores : List Matcher)
    (dirRel : List Nat) : Except Unit (Option StatusEntry × ReadDirEntry) := do
  let name := get_relative_entry_path_name dirRel entry.name
  if entry.is_dir && (lookupA index name).isSome then
    return (none, entry)
  let entry := if entry.is_dir then { entry with process := false } else entry
  let ig ← is_ignored entry name ignores
  if ig then return (none, entry)
  let name := if entry.is_dir then name ++ [47] else name
  return (some ⟨name, .New⟩, entry)

/-- `submodule_spawned_status` (worktree.rs lines 338-372) given the outcomes
of its external computations on the nested repository:
`modified_content = !index_diff.entries.is_empty()`,
`untracked_content = !work_tree_diff.entries.is_empty()`,
`new_commits = index_sha != HEAD id`; when any holds, push one entry with the
bare `Status::Modified` (no detail payload — under the enum of status.rs this
is `Modified none`). -/
def submodule_spawned_status (name : List Nat) (index_sha : List Nat) (sub : SubmoduleData) :
    Option StatusEntry :=
  if sub.index_diff ≠ [] ∨ sub.worktree_diff ≠ [] ∨ index_sha ≠ sub.head_sha then
    some ⟨name, .Modified none⟩
  else none

/-- `submodule_status` (worktree.rs lines 323-336): spawn
`submodule_spawned_status` on the entry's path.  `Repository::open(path)`
`.unwrap()` (and the nested `Index::new(..).unwrap()` /
`diff_against_index(..).unwrap()`) panic when the directory is not an
openable repository; otherwise the probe data is available. -/
def submodule_status (entry : ReadDirEntry) (index_entry : DirEntry) (dirRel : List Nat) :
    Except Unit (Option StatusEntry) :=
  let name := get_relative_entry_path_name dirRel entry.name
  match entry.node with
  | .dir _ (some sub) _ _ => .ok (submodule_spawned_status name index_entry.sha sub)
  | _ => .error ()

/-- `process_tracked_item` (worktree.rs lines 374-395): a directory stops the
descent and is probed as a submodule (its emission happens in the spawned
task, run here at the spawn point); a file is Modified exactly when its
recorded stat differs from the index entry's stat. -/
def process_tracked_item (entry : ReadDirEntry) (index_entry : DirEntry) (dirRel : List Nat) :
    Except Unit (Option StatusEntry × ReadDirEntry) :=
  if entry.is_dir then do
    let e? ← submodule_status entry index_entry dirRel
    .ok (e?, { entry with process := false })
  else if entry.stat ≠ index_entry.stat then
    .ok (some ⟨get_relative_entry_path_name dirRel entry.name, .Modified none⟩, entry)
  else .ok (none, entry)

/-- The loop of `get_file_deltas` (worktree.rs lines 177-219) with explicit
fuel (each iteration consumes at least one list element, so
`ws.length + is.length` iterations always suffice; the fuel makes the
recursion structural so that it computes definitionally).  The two-pointer
merge of the sorted filesystem listing against the directory's index slice,
returning the pushed entries in push order and the listing with its updated
`process` flags. -/
def get_file_deltas_loop (index : IndexMap) (ignores : List Matcher) (dirRel : List Nat) :
    Nat → List ReadDirEntry → List DirEntry →
    Except Unit (List StatusEntry × List ReadDirEntry)
  | _, [], is => .ok (is.filterMap process_deleted_item, [])
  | 0, _ :: _, _ => .ok ([], [])
  | fuel + 1, w :: ws, [] => do
    let (e?, w') ← process_new_item w index ignores dirRel
    let (es, ws') ← get_file_deltas_loop index ignores dirRel fuel ws []
    .ok (e?.toList ++ es, w' :: ws')
  | fuel + 1, w :: ws, i :: is =>
    match cmpBytes w.name i.name with
    | .eq => do
      let (e?, w') ← process_tracked_item w i dirRel
      let (es, ws') ← get_file_deltas_loop index ignores dirRel fuel ws is
      .ok (e?.toList ++ es, w' :: ws')
    | .lt => do
      let (e?, w') ← process_new_item w index ignores dirRel
      let (es, ws') ← get_file_deltas_loop index ignores dirRel fuel ws (i :: is)
      .ok (e?.toList ++ es, w' :: ws')
    | .gt => do
      let (es, ws') ← get_file_deltas_loop index ignores dirRel fuel (w :: ws) is
      .ok ((process_deleted_item i).toList ++ es, ws')

/-- `get_file_deltas` (worktree.rs lines 168-220): the merge loop run with
enough fuel to consume both lists. -/
def get_file_deltas (index : IndexMap) (ignores : List Matcher) (dirRel : List Nat)
    (ws : List ReadDirEntry) (is : List DirEntry) :
    Except Unit (List StatusEntry × List ReadDirEntry) :=
  get_file_deltas_loop index ignores dirRel (ws.length + is.length) ws is

/-- `process_directory` (worktree.rs lines 135-155): prepend the directory's
own `.gitignore` matcher, look the directory up in the index map, and when a
slice exists run the merge; a missing slice does nothing.  Returns the
emissions, the updated listing, and the extended chain handed to the spawned
children. -/
def process_directory (index : IndexMap) (ignores : List Matcher) (dirRel : List Nat)
    (gitignore : Option Matcher) (entries : List ReadDirEntry) :
    Except Unit (List StatusEntry × List ReadDirEntry × List Matcher) :=
  let ignores := update_ignores gitignore ignores
  match lookupA index dirRel with
  | none => .ok ([], entries, ignores)
  | some dir_entry => do
    let (es, entries') ← get_file_deltas index ignores dirRel entries dir_entry
    .ok (es, entries', ignores)

/-- The `for dir in to_process { scope.spawn(read_dir ...) }` loop of
`read_dir` (worktree.rs lines 79-86), with every spawned task run at its
spawn point; the recursive call is passed in as `g`. -/
def read_dir_spawned (g : List Nat → FSNode → Except Unit (List StatusEntry))
    (dirRel : List Nat) : List ReadDirEntry → Except Unit (List StatusEntry)
  | [] => .ok []
  | f :: fs => do
    let es ← g (joinRel dirRel f.name) f.node
    let es2 ← read_dir_spawned g dirRel fs
    .ok (es ++ es2)

/-- `read_dir` (worktree.rs lines 46-87) on the depth-first schedule: list the
directory (panicking when `fs::read_dir` fails), drop `.git`, sort by name,
run `process_directory`, then walk every child directory still marked
`process`.  `fuel` bounds the recursion depth; any fuel larger than the tree
depth reproduces the program. -/
def read_dir (index : IndexMap) : Nat → List Matcher → List Nat → FSNode →
    Except Unit (List StatusEntry)
  | 0, _, _, _ => .ok []
  | fuel + 1, ignores, dirRel, node =>
    match node with
    | .dir gitignore _ _ children => do
      let files := sortByName
        ((children.toListing.filter (fun c => c.1 ≠ strBytes ".git")).map toReadDirEntry)
      let (es, files, ignores) ← process_directory index ignores dirRel gitignore files
      let es2 ← read_dir_spawned (fun rel nd => read_dir index fuel ignores rel nd) dirRel
        (files.filter (fun f => f.is_dir && f.process))
      .ok (es ++ es2)
    | _ => .error ()

/-- `WorkTree::scoped_diff` (worktree.rs lines 120-132): the chain starts with
the user's global ignore matcher; the root is visited with relative path
`""`. -/
def scoped_diff (fuel : Nat) (global_ignore : Matcher) (index : IndexMap) (root : FSNode) :
    Except Unit (List StatusEntry) :=
  read_dir index fuel [global_ignore] [] root

/-- `WorkTree::diff_against_index` (worktree.rs lines 108-118): run the scoped
walk and wrap whatever was aggregated in `Ok` — the function body ends with
the unconditional `Ok(work_tree)`; the outer `Except Unit` is the panic
monad. -/
def diff_against_index (fuel : Nat) (global_ignore : Matcher) (index : IndexMap)
    (root : FSNode) : Except Unit (Except StatusError (List StatusEntry)) :=
  (scoped_diff fuel global_ignore index root).map (fun es => Except.ok es)

/-! ### Specification-side definitions and concrete inputs -/

/-- The ordering the specification claims for the final entry list: no entry
is followed by one with a byte-wise smaller name. -/
def SortedOutput (es : List StatusEntry) : Prop :=
  List.Pairwise (fun a b => bytesLt b.name a.name = false) es

/-- A matcher with no patterns: answers Unmatched on every path (the
`build_global()` result for a user with no global excludes, and the compiled
form of an empty `.gitignore`). -/
def unmatchedMatcher : Matcher := fun _ _ => .unmatched

/-- The node is a well-formed directory (or child chain) whose subtree
contains no `errDir`: every `fs::read_dir` below it succeeds. -/
def NoErrB : FSNode → Bool
  | .dir _ _ _ children => NoErrB children
  | .childNil => true
  | .childCons _ (.file _) rest => NoErrB rest
  | .childCons _ (.dir g sm st ch) rest => NoErrB ch && NoErrB rest
  | _ => false

/-- The repository-relative paths of every file (non-directory) in the
subtree below a directory node — the candidates
`directory_has_one_trackable_file` inspects, in disk order. -/
def filePathsNode (rel : List Nat) : FSNode → List (List Nat)
  | .dir _ _ _ children => filePathsNode rel children
  | .childCons n (.file _) rest => joinRel rel n :: filePathsNode rel rest
  | .childCons n c rest => filePathsNode (joinRel rel n) c ++ filePathsNode rel rest
  | _ => []

/-- The repository-relative paths of every item (file or directory) in the
subtree below a directory node. -/
def fsRelPaths (rel : List Nat) : FSNode → List (List Nat)
  | .dir _ _ _ children => fsRelPaths rel children
  | .childCons n c rest => joinRel rel n :: (fsRelPaths (joinRel rel n) c ++ fsRelPaths rel rest)
  | _ => []

/-- The tracked repository-relative paths recorded by an index map:
directory key joined with each entry's leaf name. -/
def trackedPaths (m : IndexMap) : List (List Nat) :=
  m.flatMap (fun kv => kv.2.map (fun e => joinRel kv.1 e.name))

/-- The leaf names of all index entries (the names `process_deleted_item`
can emit). -/
def indexLeafNames (m : IndexMap) : List (List Nat) :=
  m.flatMap (fun kv => kv.2.map (fun e => e.name))

/-- Big-endian 4-byte encoding, for building concrete index files. -/
def be32Bytes (n : Nat) : List Nat :=
  [n / 16777216 % 256, n / 65536 % 256, n / 256 % 256, n % 256]

/-- Big-endian 2-byte encoding. -/
def be16Bytes (n : Nat) : List Nat := [n / 256 % 256, n % 256]

/-- One on-disk index entry with all-zero ctime/mtime/dev/ino/mode/uid/gid/size
fields, the given object id and path, and the mandatory padding. -/
def rawIndexEntry (sha name : List Nat) : List Nat :=
  List.replicate 40 0 ++ sha ++ be16Bytes name.length ++ name ++
    List.replicate (8 - (62 + name.length) % 8) 0

/-- A version-2 index file with the given (object id, path) entries. -/
def rawIndexFile (entries : List (List Nat × List Nat)) : List Nat :=
  strBytes "DIRC" ++ be32Bytes 2 ++ be32Bytes entries.length ++
    entries.flatMap (fun e => rawIndexEntry e.1 e.2)

/-- C1 scenario: the index tracks `a/x.txt`; on disk `a/x.txt` has a changed
stat and an untracked `b.txt` sits at the root. -/
def c1EntryX : DirEntry := ⟨strBytes "shaX", strBytes "x.txt", ⟨10, 5⟩, .Regular⟩

/-- C1 scenario index map: root key (ancestor) plus directory `a`. -/
def c1Index : IndexMap := [([], []), (strBytes "a", [c1EntryX])]

/-- C1 scenario filesystem. -/
def c1Tree : FSNode :=
  .dir none none ⟨0, 0⟩ (chainOf
    [(strBytes "a", .dir none none ⟨0, 0⟩ (chainOf [(strBytes "x.txt", .file ⟨10, 6⟩)])),
     (strBytes "b.txt", .file ⟨1, 1⟩)])

/-- The list `diff_against_index` returns on the C1 scenario: push order, not
name order. -/
def c1Output : List StatusEntry :=
  [⟨strBytes "b.txt", .New⟩, ⟨strBytes "a/x.txt", .Modified none⟩]

/-- A 20-byte object id for concrete index files. -/
def c3Sha : List Nat := List.replicate 20 97

/-- A syntactically valid version-2 index file whose two root entries appear
in descending name order (`b` before `a`). -/
def c3FileUnsorted : List Nat :=
  rawIndexFile [(c3Sha, strBytes "b"), (c3Sha, strBytes "a")]

/-- The same two entries in ascending order, as git itself writes them. -/
def c3FileSorted : List Nat :=
  rawIndexFile [(c3Sha, strBytes "a"), (c3Sha, strBytes "b")]

/-- C4 probe data: nested HEAD differs from the recorded object id, both
nested diffs empty (only `new commits` holds). -/
def c4Sub : SubmoduleData := ⟨[2], [], []⟩

/-- C4 probe data for the `submodule_with_modified_files` integration test:
same HEAD, staged diff empty, one unstaged modification of a tracked file in
the nested worktree. -/
def c4SubUnstaged : SubmoduleData :=
  ⟨[1], [], [⟨strBytes "sure.c", .Modified none⟩]⟩

/-- C5 scenario: a freshly-initialised repository (empty index map) whose
working tree has one non-ignored file. -/
def c5Tree : FSNode :=
  .dir none none ⟨0, 0⟩ (chainOf [(strBytes "a.txt", .file ⟨1, 1⟩)])

/-- C6 witness: an untracked directory containing one non-ignored file. -/
def c6Node : FSNode :=
  .dir none none ⟨0, 0⟩ (chainOf [(strBytes "f.txt", .file ⟨1, 1⟩)])

/-- C6 witness: the walker's entry for that directory. -/
def c6Entry : ReadDirEntry := ⟨strBytes "newdir", true, true, ⟨0, 0⟩, c6Node⟩

/-- C7 witness: a tracked regular file missing from disk. -/
def c7Gone : DirEntry := ⟨strBytes "sha1", strBytes "gone.txt", ⟨1, 1⟩, .Regular⟩

/-- C7 witness: a tracked submodule (GitLink) missing from disk. -/
def c7Sub : DirEntry := ⟨strBytes "sha2", strBytes "sub", ⟨0, 0⟩, .GitLink⟩

/-- C8 scenario: the index tracks `a/file.txt` (missing on disk); an
untracked directory `d` holds a file. -/
def c8EntryF : DirEntry := ⟨strBytes "shaF", strBytes "file.txt", ⟨10, 5⟩, .Regular⟩

/-- C8 scenario index map. -/
def c8Index : IndexMap := [([], []), (strBytes "a", [c8EntryF])]

/-- C8 scenario filesystem. -/
def c8Tree : FSNode :=
  .dir none none ⟨0, 0⟩ (chainOf
    [(strBytes "a", .dir none none ⟨0, 0⟩ .childNil),
     (strBytes "d", .dir none none ⟨0, 0⟩ (chainOf [(strBytes "f.txt", .file ⟨1, 1⟩)]))])

/-- The list the walk produces on the C8 scenario. -/
def c8Output : List StatusEntry :=
  [⟨strBytes "d/", .New⟩, ⟨strBytes "file.txt", .Deleted⟩]

/-- C10 witness: a subdirectory whose relative path is an index key. -/
def c10Entry : ReadDirEntry :=
  ⟨strBytes "a", true, true, ⟨0, 0⟩, .dir none none ⟨0, 0⟩ .childNil⟩

/-! ### Order lemmas about `bytesLt` / `cmpBytes`, `Except` bind lemmas -/

@[simp]
theorem exc_bind_ok {α β : Type} (a : α) (f : α → Except Unit β) :
    (Except.ok a >>= f) = f a := rfl

@[simp]
theorem exc_bind_error {α β : Type} (u : Unit) (f : α → Except Unit β) :
    ((Except.error u : Except Unit α) >>= f) = Except.error u := rfl

theorem bytesLt_irrefl (a : List Nat) : bytesLt a a = false := by
  induction a with
  | nil => rfl
  | cons x xs ih => simp [bytesLt, ih]

theorem cmpBytes_eq_iff {a b : List Nat} : cmpBytes a b = .eq ↔ a = b := by
  induction a generalizing b with
  | nil => cases b <;> simp [cmpBytes]
  | cons x xs ih =>
    cases b with
    | nil => simp [cmpBytes]
    | cons y ys =>
      simp only [cmpBytes]
      by_cases h1 : x < y
      · simp only [if_pos h1]
        constructor
        · intro h; exact absurd h (by decide)
        · intro h
          injection h with h2 h3
          exact ((by omega : False)).elim
      · by_cases h2 : y < x
        · simp only [if_neg h1, if_pos h2]
          constructor
          · intro h; exact absurd h (by decide)
          · intro h
            injection h with h3 h4
            exact ((by omega : False)).elim
        · have hxy : x = y := by omega
          subst hxy
          simp [ih]

theorem cmpBytes_lt_iff {a b : List Nat} : cmpBytes a b = .lt ↔ bytesLt a b = true := by
  induction a generalizing b with
  | nil => cases b <;> simp [cmpBytes, bytesLt]
  | cons x xs ih =>
    cases b with
    | nil => simp [cmpBytes, bytesLt]
    | cons y ys =>
      simp only [cmpBytes, bytesLt]
      by_cases h1 : x < y
      · simp [h1]
      · by_cases h2 : y < x
        · simp [h1, h2]
        · simp [h1, h2, ih]

theorem cmpBytes_gt_iff {a b : List Nat} : cmpBytes a b = .gt ↔ bytesLt b a = true := by
  induction a generalizing b with
  | nil => cases b <;> simp [cmpBytes, bytesLt]
  | cons x xs ih =>
    cases b with
    | nil => simp [cmpBytes, bytesLt]
    | cons y ys =>
      simp only [cmpBytes, bytesLt]
      split_ifs <;> first | omega | simp | exact ih

theorem bytesLt_trans {a b c : List Nat} (h1 : bytesLt a b = true)
    (h2 : bytesLt b c = true) : bytesLt a c = true := by
  induction a generalizing b c with
  | nil =>
    cases b with
    | nil => simp [bytesLt] at h1
    | cons y ys => cases c with
      | nil => simp [bytesLt] at h2
      | cons z zs => simp [bytesLt]
  | cons x xs ih =>
    cases b with
    | nil => simp [bytesLt] at h1
    | cons y ys =>
      cases c with
      | nil => simp [bytesLt] at h2
      | cons z zs =>
        simp only [bytesLt] at h1 h2 ⊢
        split_ifs at h1 h2 ⊢ <;>
          first
            | rfl
            | omega
            | exact absurd h1 (by decide)
            | exact absurd h2 (by decide)
            | exact ih h1 h2

theorem bytesLt_ne {a b : List Nat} (h : bytesLt a b = true) : a ≠ b := by
  intro heq
  subst heq
  rw [bytesLt_irrefl] at h
  exact absurd h (by decide)

theorem bytesLt_append_left (p a b : List Nat) :
    bytesLt (p ++ a) (p ++ b) = bytesLt a b := by
  induction p with
  | nil => rfl
  | cons x xs ih => simp [bytesLt, ih]

/-! ### Claim theorems: C1, C2, C4, C5, C9, C10 -/

/-- Claim C1 (code_bug evidence): on the C1 scenario — tracked `a/x.txt` with
a stale stat, untracked root file `b.txt` — `WorkTree::diff_against_index`
returns the entries in push order `[b.txt, a/x.txt]`, which is not sorted
byte-wise by name: the aggregator (worktree.rs lines 108-118) applies no sort
to the collected `changed_files`. -/
theorem c1_output_not_sorted :
    diff_against_index 3 unmatchedMatcher c1Index c1Tree = .ok (.ok c1Output) ∧
    ¬ SortedOutput c1Output := by
  refine ⟨rfl, ?_⟩
  intro h
  rw [SortedOutput] at h
  have h3 : List.Pairwise (fun a b : StatusEntry => bytesLt b.name a.name = false)
      (⟨strBytes "b.txt", Status.New⟩ :: [⟨strBytes "a/x.txt", Status.Modified none⟩]) := h
  rw [List.pairwise_cons] at h3
  have h2 := h3.1 ⟨strBytes "a/x.txt", .Modified none⟩ (by simp)
  exact absurd h2 (by decide)

/-- Claim C2 (corrected): for a file modified `s` seconds + `ns` nanoseconds
after the Unix epoch (`ns < 10^9`) and of length `len`, both working-tree
walkers record the mtime in whole seconds truncated to 32 bits — the portable
listing via `as_secs() as u32`, the Windows batched path via
`windows_time_to_git_time` of the 100-ns tick count — and the size truncated
to 32 bits; only the index decoder stores nanoseconds
(`s * 10^9 + ns`). -/
theorem c2_walkers_record_seconds (s ns len : Nat) (hns : ns < 1000000000) :
    read_dir_mtime s ns = s % 4294967296 ∧
    read_dir_size len = len % 4294967296 ∧
    windows_time_to_git_time ((116444736000000000 + s * 10000000 + ns / 100 : Nat) : Int) =
      s % 4294967296 ∧
    windows_size ((len : Nat) : Int) = len % 4294967296 ∧
    index_entry_mtime s ns = s * 1000000000 + ns := by
  refine ⟨rfl, rfl, ?_, ?_, rfl⟩
  · have hdiv : (s * 10000000 + ns / 100) / 10000000 = s := by omega
    unfold windows_time_to_git_time
    have h1 : ((116444736000000000 + s * 10000000 + ns / 100 : Nat) : Int) -
        116444736000000000 = ((s * 10000000 + ns / 100 : Nat) : Int) := by
      push_cast
      ring
    rw [h1]
    have h2 : ((s * 10000000 + ns / 100 : Nat) : Int).tdiv (10000000 : Int) =
        (((s * 10000000 + ns / 100) / 10000000 : Nat) : Int) := rfl
    rw [h2, hdiv]
    omega
  · unfold windows_size
    omega

/-- Witness for C2 (amended): the amended statement at `s = 1`,
`ns = 500000000`, `len = 6`. -/
theorem c2_walkers_record_seconds_witness :
    read_dir_mtime 1 500000000 = 1 % 4294967296 ∧
    read_dir_size 6 = 6 % 4294967296 ∧
    windows_time_to_git_time ((116444736000000000 + 1 * 10000000 + 500000000 / 100 : Nat) : Int) =
      1 % 4294967296 ∧
    windows_size ((6 : Nat) : Int) = 6 % 4294967296 ∧
    index_entry_mtime 1 500000000 = 1 * 1000000000 + 500000000 :=
  c2_walkers_record_seconds 1 500000000 6 (by decide)

/-- Counterexample for C2 as stated: at 1.5 seconds past the epoch the
portable walker records mtime 1 and the Windows path records mtime 1, while
the nanosecond value the claim requires (and the index decoder produces) is
1500000000. -/
theorem c2_counterexample :
    read_dir_mtime 1 500000000 = 1 ∧
    windows_time_to_git_time 116444736015000000 = 1 ∧
    index_entry_mtime 1 500000000 = 1500000000 ∧
    read_dir_mtime 1 500000000 ≠ index_entry_mtime 1 500000000 ∧
    windows_time_to_git_time 116444736015000000 ≠ index_entry_mtime 1 500000000 := by
  refine ⟨by decide, by decide, by decide, by decide, by decide⟩

/-- Claim C4 (code_bug evidence): `submodule_spawned_status` pushes the bare
`Status::Modified` with no detail string.  On a probe whose nested HEAD
differs from the recorded object id (only "new commits" holds) the emitted
state is `Modified none`, not `Modified (some "new commits")` — the repo's own
integration test `submodule_with_new_commits` expects the latter.  Likewise an
unstaged modification of a tracked nested file (test
`submodule_with_modified_files`, expecting `Modified (some "modified
content")`) is emitted as `Modified none`, reached via the
`untracked_content` flag because the code derives `modified_content` from the
staged diff only. -/
theorem c4_submodule_detail_lost :
    submodule_spawned_status (strBytes "sub_repo_dir") [1] c4Sub =
      some ⟨strBytes "sub_repo_dir", .Modified none⟩ ∧
    submodule_spawned_status (strBytes "sub_repo_dir") [1] c4SubUnstaged =
      some ⟨strBytes "sub_repo_dir", .Modified none⟩ ∧
    Status.Modified none ≠ Status.Modified (some (strBytes "new commits")) ∧
    Status.Modified none ≠ Status.Modified (some (strBytes "modified content")) := by
  refine ⟨by decide, by decide, by decide, by decide⟩

/-- Claim C5 (amended): when the visited directory's relative path is not a
key of the index map, `process_directory` does nothing: no child is
classified, nothing is emitted, and the listing (including every `process`
flag) is returned unchanged. -/
theorem c5_no_slice_is_noop (index : IndexMap) (ignores : List Matcher)
    (dirRel : List Nat) (gitignore : Option Matcher) (entries : List ReadDirEntry)
    (h : lookupA index dirRel = none) :
    process_directory index ignores dirRel gitignore entries =
      .ok ([], entries, update_ignores gitignore ignores) := by
  unfold process_directory
  rw [h]

/-- Witness for C5 (amended): the no-op on the C5 scenario's root visit. -/
theorem c5_no_slice_is_noop_witness :
    process_directory [] [unmatchedMatcher] [] none [] =
      .ok ([], [], update_ignores none [unmatchedMatcher]) :=
  c5_no_slice_is_noop [] [unmatchedMatcher] [] none [] rfl

/-- Counterexample for C5 as stated: on a freshly-initialised repository
(empty index map) with one non-ignored file `a.txt`, the walk emits nothing —
the file is not classified and not reported New. -/
theorem c5_counterexample :
    diff_against_index 2 unmatchedMatcher [] c5Tree = .ok (.ok []) ∧
    (⟨strBytes "a.txt", .New⟩ : StatusEntry) ∉ ([] : List StatusEntry) := by
  exact ⟨rfl, by simp⟩

/-- Claim C9 (code_bug evidence): an `fs::read_dir` failure makes the walk
panic (`unwrap()`), it is not captured; and `diff_against_index` can never
return a structured error — its body ends in the unconditional
`Ok(work_tree)`. -/
theorem c9_errors_panic :
    diff_against_index 1 unmatchedMatcher [] FSNode.errDir = Except.error () ∧
    ∀ (fuel : Nat) (g : Matcher) (index : IndexMap) (root : FSNode) (e : StatusError),
      diff_against_index fuel g index root ≠ Except.ok (Except.error e) := by
  constructor
  · rfl
  · intro fuel g index root e h
    unfold diff_against_index at h
    cases hres : scoped_diff fuel g index root with
    | ok es => rw [hres] at h; simp [Except.map] at h
    | error u => rw [hres] at h; simp [Except.map] at h

/-- Every entry `submodule_spawned_status` emits has state `Modified none`. -/
theorem submodule_spawned_status_state {n s : List Nat} {sub : SubmoduleData}
    {e : StatusEntry} (h : submodule_spawned_status n s sub = some e) :
    e.state = .Modified none := by
  unfold submodule_spawned_status at h
  split at h
  · injection h with h1
    subst h1
    rfl
  · exact absurd h (by simp)

/-- Claim C10 (confirmed): a child subdirectory whose repository-relative
path is a key of the index map is returned by `process_new_item` untouched —
no New entry, `process` flag (descent mark) preserved; consequently only
directories absent from the map can be reported New or have their descent
stopped by the new-item path.  And the tracked-item path never emits New for
a directory: its probe emissions are all `Modified`. -/
theorem c10_tracked_dir_kept (index : IndexMap) (ignores : List Matcher)
    (dirRel : List Nat) (entry : ReadDirEntry) (hdir : entry.is_dir = true)
    (hkey : (lookupA index (get_relative_entry_path_name dirRel entry.name)).isSome = true) :
    process_new_item entry index ignores dirRel = .ok (none, entry) ∧
    ∀ (i : DirEntry) (e : StatusEntry) (entry' : ReadDirEntry),
      process_tracked_item entry i dirRel = .ok (some e, entry') → e.state ≠ .New := by
  constructor
  · unfold process_new_item
    simp only [hdir, hkey, Bool.and_self, if_true]
    rfl
  · intro i e entry' h
    unfold process_tracked_item at h
    rw [hdir] at h
    simp only [eq_self_iff_true, if_true] at h
    cases hsub : submodule_status entry i dirRel with
    | error u =>
      rw [hsub, exc_bind_error] at h
      exact absurd h (by simp)
    | ok e0 =>
      rw [hsub, exc_bind_ok] at h
      simp only [Except.ok.injEq, Prod.mk.injEq] at h
      obtain ⟨h1, h2⟩ := h
      subst h1
      unfold submodule_status at hsub
      cases hnode : entry.node with
      | dir g sm st ch =>
        rw [hnode] at hsub
        cases sm with
        | none => exact absurd hsub (by simp)
        | some sub =>
          simp only [Except.ok.injEq] at hsub
          have hstate := submodule_spawned_status_state hsub
          rw [hstate]
          decide
      | file st => rw [hnode] at hsub; exact absurd hsub (by simp)
      | errDir => rw [hnode] at hsub; exact absurd hsub (by simp)
      | childNil => rw [hnode] at hsub; exact absurd hsub (by simp)
      | childCons n c rest => rw [hnode] at hsub; exact absurd hsub (by simp)

/-- Witness for C10: the tracked directory `a` of the C1 index is passed
through unchanged. -/
theorem c10_tracked_dir_kept_witness :
    process_new_item c10Entry c1Index [unmatchedMatcher] [] = .ok (none, c10Entry) :=
  (c10_tracked_dir_kept c1Index [unmatchedMatcher] [] c10Entry rfl (by decide)).1

/-! ### C3: the decoded directory map -/

theorem updateA_absent {m : IndexMap} {k : List Nat} (nv : List DirEntry)
    (h : lookupA m k = none) : updateA m k nv = m := by
  induction m with
  | nil => rfl
  | cons a rest ih =>
    obtain ⟨ak, av⟩ := a
    unfold lookupA at h
    unfold updateA
    by_cases hak : ak = k
    · rw [if_pos hak] at h
      exact absurd h (by simp)
    · rw [if_neg hak] at h
      rw [if_neg hak, ih h]

theorem lookupA_updateA_present {m : IndexMap} {k : List Nat} {v : List DirEntry}
    (nv : List DirEntry) (h : lookupA m k = some v) (d : List Nat) :
    lookupA (updateA m k nv) d = if k = d then some nv else lookupA m d := by
  induction m with
  | nil => exact absurd h (by simp [lookupA])
  | cons a rest ih =>
    obtain ⟨ak, av⟩ := a
    unfold lookupA at h
    unfold updateA
    by_cases hak : ak = k
    · subst hak
      rw [if_pos rfl]
      unfold lookupA
      by_cases hd : ak = d
      · rw [if_pos hd, if_pos hd]
      · rw [if_neg hd, if_neg hd]
        unfold lookupA
        rw [if_neg hd]
    · rw [if_neg hak] at h
      rw [if_neg hak]
      unfold lookupA
      by_cases hd : ak = d
      · rw [if_pos hd]
        have hkd : ¬ k = d := by
          intro hkd
          exact hak (hd.trans hkd.symm)
        rw [if_neg hkd, if_pos hd]
      · rw [if_neg hd, ih h]
        by_cases hkd : k = d
        · rw [if_pos hkd, if_pos hkd]
        · rw [if_neg hkd, if_neg hkd]
          unfold lookupA
          rw [if_neg hd]

theorem lookupA_append (m1 m2 : IndexMap) (d : List Nat) :
    lookupA (m1 ++ m2) d =
      match lookupA m1 d with
      | some v => some v
      | none => lookupA m2 d := by
  induction m1 with
  | nil => simp [lookupA]
  | cons a rest ih =>
    obtain ⟨ak, av⟩ := a
    by_cases hd : ak = d
    · simp [lookupA, hd]
    · simp only [List.cons_append, lookupA, if_neg hd]
      exact ih

theorem lookupA_insertIfAbsent (m : IndexMap) (k d : List Nat) :
    lookupA (insertIfAbsent m k) d =
      match lookupA m d with
      | some v => some v
      | none => if d = k ∧ lookupA m k = none then some [] else none := by
  unfold insertIfAbsent
  cases hk : lookupA m k with
  | some v =>
    cases hd : lookupA m d with
    | some w => simp
    | none => simp [hk]
  | none =>
    rw [lookupA_append]
    cases hd : lookupA m d with
    | some w => simp
    | none =>
      simp only []
      unfold lookupA
      by_cases hdk : d = k
      · rw [if_pos hdk.symm]
        simp [hdk]
      · rw [if_neg (fun h => hdk h.symm), if_neg (by rintro ⟨h1, _⟩; exact hdk h1)]
        rfl

theorem lookupA_foldl_insertIfAbsent (as : List (List Nat)) :
    ∀ (m : IndexMap) (d : List Nat),
      lookupA (as.foldl insertIfAbsent m) d =
        match lookupA m d with
        | some v => some v
        | none => if d ∈ as then some [] else none := by
  induction as with
  | nil =>
    intro m d
    cases h : lookupA m d <;> simp [h]
  | cons a as ih =>
    intro m d
    rw [List.foldl_cons, ih, lookupA_insertIfAbsent]
    cases h : lookupA m d with
    | some v => simp
    | none =>
      by_cases hd : d = a
      · subst hd
        rw [if_pos ⟨rfl, h⟩]
        simp
      · rw [if_neg (by rintro ⟨h1, _⟩; exact hd h1)]
        simp [hd]

theorem self_mem_ancestorsOf (d : List Nat) : d ∈ ancestorsOf d := by
  unfold ancestorsOf ancestorsFuel
  by_cases h : d = []
  · simp [h]
  · simp [h]

theorem lookupA_push_self (m : IndexMap) (d : List Nat) (e : DirEntry) :
    lookupA (get_directory_entry_push m d e) d = some ((lookupA m d).getD [] ++ [e]) := by
  unfold get_directory_entry_push
  cases h : lookupA m d with
  | some v =>
    rw [lookupA_updateA_present (v ++ [e]) h d, if_pos rfl]
    simp
  | none =>
    have hm2 : lookupA ((ancestorsOf d).foldl insertIfAbsent m) d = some [] := by
      rw [lookupA_foldl_insertIfAbsent, h]
      simp [self_mem_ancestorsOf]
    rw [lookupA_updateA_present _ hm2 d, if_pos rfl, hm2]
    simp

theorem lookupA_push_other (m : IndexMap) (d : List Nat) (e : DirEntry)
    (d' : List Nat) (hne : d' ≠ d) :
    lookupA (get_directory_entry_push m d e) d' =
      match lookupA m d' with
      | some v => some v
      | none => if lookupA m d = none ∧ d' ∈ ancestorsOf d then some [] else none := by
  unfold get_directory_entry_push
  cases h : lookupA m d with
  | some v =>
    rw [lookupA_updateA_present (v ++ [e]) h d', if_neg (fun hx => hne hx.symm)]
    cases hd' : lookupA m d' with
    | some w => simp
    | none => simp
  | none =>
    have hm2 : lookupA ((ancestorsOf d).foldl insertIfAbsent m) d = some [] := by
      rw [lookupA_foldl_insertIfAbsent, h]
      simp [self_mem_ancestorsOf]
    rw [lookupA_updateA_present _ hm2 d', if_neg (fun hx => hne hx.symm)]
    rw [lookupA_foldl_insertIfAbsent]
    cases hd' : lookupA m d' with
    | some w => simp
    | none => simp

theorem getD_lookupA_push_other (m : IndexMap) (d : List Nat) (e : DirEntry)
    (d' : List Nat) (hne : d' ≠ d) :
    (lookupA (get_directory_entry_push m d e) d').getD [] = (lookupA m d').getD [] := by
  rw [lookupA_push_other m d e d' hne]
  cases hd' : lookupA m d' with
  | some w => simp
  | none =>
    by_cases hc : lookupA m d = none ∧ d' ∈ ancestorsOf d
    · simp [hc]
    · simp [hc]

/-- Each directory's list in the built map is exactly the decoded entries for
that directory, in stream order, appended to whatever the starting map held. -/
theorem foldl_push_lookup (pairs : List (List Nat × DirEntry)) :
    ∀ (m : IndexMap) (d : List Nat) (l : List DirEntry),
      lookupA (pairs.foldl (fun m pe => get_directory_entry_push m pe.1 pe.2) m) d = some l →
      l = (lookupA m d).getD [] ++ (pairs.filter (fun p => p.1 = d)).map Prod.snd := by
  induction pairs with
  | nil =>
    intro m d l h
    simp only [List.foldl_nil] at h
    rw [h]
    simp
  | cons p pairs ih =>
    intro m d l h
    rw [List.foldl_cons] at h
    have hl := ih (get_directory_entry_push m p.1 p.2) d l h
    by_cases hd : p.1 = d
    · subst hd
      rw [lookupA_push_self] at hl
      rw [List.filter_cons_of_pos (by simp)]
      simp only [List.map_cons]
      rw [hl]
      simp
    · rw [List.filter_cons_of_neg (by simp [hd])]
      rw [getD_lookupA_push_other m p.1 p.2 d (fun hx => hd hx.symm)] at hl
      exact hl

/-- The joined relative paths of two entries of the same directory compare
exactly as their leaf names do. -/
theorem bytesLt_joinRel (d a b : List Nat) :
    bytesLt (joinRel d a) (joinRel d b) = bytesLt a b := by
  unfold joinRel
  by_cases hd : d = []
  · rw [if_pos hd, if_pos hd]
  · rw [if_neg hd, if_neg hd, bytesLt_append_left]
    simp [bytesLt]

/-- Claim C3 (amended): `Index::new` performs no sort — each directory's list
preserves the index file's entry order (theorem `foldl_push_lookup`).  When
the decoded entries appear in strictly ascending full-path byte order, as in
every index file git itself writes, each directory's list in the resulting
map is strictly ascending by leaf name. -/
theorem c3_sorted_when_file_sorted (file : List Nat) (hdr : Header)
    (contents : List Nat) (pairs : List (List Nat × DirEntry)) (rest : List Nat)
    (ix : Index)
    (hh : read_header file = some (hdr, contents))
    (he : read_entries hdr.entries contents = some (pairs, rest))
    (hix : indexNew file = some ix)
    (hsorted : List.Pairwise
      (fun a b => bytesLt (joinRel a.1 a.2.name) (joinRel b.1 b.2.name) = true) pairs)
    (d : List Nat) (l : List DirEntry)
    (hl : lookupA ix.entries d = some l) :
    List.Pairwise (fun a b : DirEntry => bytesLt a.name b.name = true) l := by
  have hent : ix.entries = buildMap pairs := by
    unfold indexNew at hix
    rw [hh] at hix
    simp only [Option.bind_eq_bind, Option.some_bind] at hix
    rw [he] at hix
    simp only [Option.some_bind, Option.some.injEq] at hix
    rw [← hix]
  rw [hent] at hl
  have hfilter := foldl_push_lookup pairs [] d l hl
  simp only [lookupA, Option.getD_none, List.nil_append] at hfilter
  subst hfilter
  rw [List.pairwise_map]
  have hps : List.Pairwise
      (fun a b => bytesLt (joinRel a.1 a.2.name) (joinRel b.1 b.2.name) = true)
      (pairs.filter (fun p => p.1 = d)) := List.Pairwise.filter _ hsorted
  refine List.Pairwise.imp_of_mem ?_ hps
  intro a b ha hb hab
  have had : a.1 = d := by
    have := (List.mem_filter.mp ha).2
    exact of_decide_eq_true this
  have hbd : b.1 = d := by
    have := (List.mem_filter.mp hb).2
    exact of_decide_eq_true this
  rw [had, hbd] at hab
  rw [bytesLt_joinRel] at hab
  exact hab

/-- Witness for C3 (amended): the sorted two-entry file decodes to a root
list that is strictly ascending by leaf name. -/
theorem c3_sorted_when_file_sorted_witness :
    List.Pairwise (fun a b : DirEntry => bytesLt a.name b.name = true)
      [⟨c3Sha, strBytes "a", ⟨0, 0⟩, .Regular⟩, ⟨c3Sha, strBytes "b", ⟨0, 0⟩, .Regular⟩] :=
  c3_sorted_when_file_sorted c3FileSorted ⟨2, 2⟩ _ _ _ _ rfl rfl rfl (by decide) [] _ rfl

/-- Counterexample for C3 as stated: a syntactically valid version-2 index
file whose entries arrive as `b` then `a` decodes to a root directory list
`[b, a]` that is not sorted by leaf name (not even weakly: the later entry's
name is byte-wise smaller). -/
theorem c3_counterexample :
    (indexNew c3FileUnsorted).map (fun ix => lookupA ix.entries []) =
      some (some [⟨c3Sha, strBytes "b", ⟨0, 0⟩, .Regular⟩,
                  ⟨c3Sha, strBytes "a", ⟨0, 0⟩, .Regular⟩]) ∧
    ¬ List.Pairwise (fun a b : DirEntry => bytesLt b.name a.name = false)
      [⟨c3Sha, strBytes "b", ⟨0, 0⟩, .Regular⟩,
       ⟨c3Sha, strBytes "a", ⟨0, 0⟩, .Regular⟩] := by
  constructor
  · rfl
  · intro h
    rw [List.pairwise_cons] at h
    have h2 := h.1 ⟨c3Sha, strBytes "a", ⟨0, 0⟩, .Regular⟩ (by simp)
    exact absurd h2 (by decide)

/-! ### C6: unmatched untracked directories -/

/-- On a well-formed, error-free directory (or chain),
`directory_has_one_trackable_file` computes exactly "some file in the subtree
is not ignored by the chain" over the file paths the search visits. -/
theorem dho_eq_any (ignores : List Matcher) (node : FSNode) :
    ∀ (rel : List Nat), NoErrB node = true →
      directory_has_one_trackable_file ignores rel node =
        .ok ((filePathsNode rel node).any (fun p => !fileIgnored ignores p)) := by
  induction node with
  | file s => intro rel h; exact absurd h (by simp [NoErrB])
  | errDir => intro rel h; exact absurd h (by simp [NoErrB])
  | childNil => intro rel h; rfl
  | dir g sm st children ih =>
    intro rel h
    rw [show NoErrB (.dir g sm st children) = NoErrB children from rfl] at h
    rw [show directory_has_one_trackable_file ignores rel (.dir g sm st children) =
      directory_has_one_trackable_file ignores rel children from rfl]
    rw [show filePathsNode rel (.dir g sm st children) = filePathsNode rel children from rfl]
    exact ih rel h
  | childCons n c rest ihc ihr =>
    intro rel h
    cases c with
    | file s =>
      rw [show NoErrB (.childCons n (.file s) rest) = NoErrB rest from rfl] at h
      rw [show directory_has_one_trackable_file ignores rel (.childCons n (.file s) rest) =
        (if fileIgnored ignores (joinRel rel n) then
          directory_has_one_trackable_file ignores rel rest
        else .ok true) from rfl]
      rw [show filePathsNode rel (.childCons n (.file s) rest) =
        joinRel rel n :: filePathsNode rel rest from rfl]
      by_cases hig : fileIgnored ignores (joinRel rel n)
      · rw [if_pos hig, ihr rel h]
        simp [hig]
      · rw [if_neg hig]
        simp only [List.any_cons]
        rw [show (!fileIgnored ignores (joinRel rel n)) = true by simp [hig]]
        simp
    | dir g sm st ch =>
      rw [show NoErrB (.childCons n (.dir g sm st ch) rest) =
        (NoErrB ch && NoErrB rest) from rfl] at h
      rw [Bool.and_eq_true] at h
      rw [show directory_has_one_trackable_file ignores rel (.childCons n (.dir g sm st ch) rest) =
        (do
          let b ← directory_has_one_trackable_file ignores (joinRel rel n) (.dir g sm st ch)
          if b then .ok true else directory_has_one_trackable_file ignores rel rest) from rfl]
      rw [show filePathsNode rel (.childCons n (.dir g sm st ch) rest) =
        filePathsNode (joinRel rel n) (.dir g sm st ch) ++ filePathsNode rel rest from rfl]
      rw [ihc (joinRel rel n) (by simpa [NoErrB] using h.1), exc_bind_ok]
      by_cases hb : (filePathsNode (joinRel rel n) (.dir g sm st ch)).any
          (fun p => !fileIgnored ignores p)
      · rw [if_pos hb]
        simp [hb]
      · rw [if_neg hb]
        rw [ihr rel h.2]
        simp only [List.any_append]
        rw [show ((filePathsNode (joinRel rel n) (.dir g sm st ch)).any
          (fun p => !fileIgnored ignores p)) = false by simpa using hb]
        simp
    | errDir =>
      exact absurd h (by simp [NoErrB])
    | childNil =>
      exact absurd h (by simp [NoErrB])
    | childCons n2 c2 r2 =>
      exact absurd h (by simp [NoErrB])

/-- Claim C6 (confirmed): an unknown directory (not an index key) on which
the whole ignore chain is silent is searched recursively; descent is stopped
(`process := false`), and exactly when the subtree holds at least one
non-ignored file, one New entry for the directory with a trailing `/` is
emitted — otherwise nothing. -/
theorem c6_unmatched_dir_collapsed (index : IndexMap) (ignores : List Matcher)
    (dirRel : List Nat) (entry : ReadDirEntry)
    (hdir : entry.is_dir = true)
    (hkey : lookupA index (get_relative_entry_path_name dirRel entry.name) = none)
    (hchain : chainMatch ignores (get_relative_entry_path_name dirRel entry.name) true =
      .unmatched)
    (hwf : NoErrB entry.node = true) :
    process_new_item entry index ignores dirRel =
      .ok (if (filePathsNode (get_relative_entry_path_name dirRel entry.name)
                entry.node).any (fun p => !fileIgnored ignores p)
           then (some ⟨get_relative_entry_path_name dirRel entry.name ++ [47], .New⟩,
                 { entry with process := false })
           else (none, { entry with process := false })) ∧
    ((filePathsNode (get_relative_entry_path_name dirRel entry.name) entry.node).any
        (fun p => !fileIgnored ignores p) = true ↔
      ∃ p ∈ filePathsNode (get_relative_entry_path_name dirRel entry.name) entry.node,
        fileIgnored ignores p = false) := by
  constructor
  · have hd := dho_eq_any ignores entry.node (get_relative_entry_path_name dirRel entry.name) hwf
    by_cases hany : (filePathsNode (get_relative_entry_path_name dirRel entry.name)
        entry.node).any (fun p => !fileIgnored ignores p)
    · rw [if_pos hany]
      unfold process_new_item is_ignored
      simp [hdir, hkey, hchain, hd, hany]
      try rfl
    · rw [if_neg hany]
      unfold process_new_item is_ignored
      simp only [Bool.not_eq_true] at hany
      simp [hdir, hkey, hchain, hd, hany]
      try rfl
  · rw [List.any_eq_true]
    constructor
    · rintro ⟨p, hp, hnp⟩
      exact ⟨p, hp, by simpa using hnp⟩
    · rintro ⟨p, hp, hnp⟩
      exact ⟨p, hp, by simpa using hnp⟩

/-- Witness for C6: the untracked directory `newdir` holding the non-ignored
file `f.txt` gets exactly one New entry `newdir/` and its descent is
stopped. -/
theorem c6_unmatched_dir_collapsed_witness :
    process_new_item c6Entry [] [unmatchedMatcher] [] =
      .ok (some ⟨strBytes "newdir/", .New⟩, { c6Entry with process := false }) := by
  have h := (c6_unmatched_dir_collapsed [] [unmatchedMatcher] [] c6Entry rfl rfl rfl rfl).1
  rw [if_pos (by decide)] at h
  exact h

/-! ### C7: deleted entries in the two-pointer merge -/

@[simp]
theorem exc_pure {α : Type} (a : α) : (pure a : Except Unit α) = Except.ok a := rfl

/-- Closed-form case analysis of `process_new_item`. -/
theorem process_new_item_eq (entry : ReadDirEntry) (index : IndexMap)
    (ignores : List Matcher) (dirRel : List Nat) :
    process_new_item entry index ignores dirRel =
      (if entry.is_dir &&
          (lookupA index (get_relative_entry_path_name dirRel entry.name)).isSome
       then .ok (none, entry)
       else
         match is_ignored (if entry.is_dir then { entry with process := false } else entry)
             (get_relative_entry_path_name dirRel entry.name) ignores with
         | .error u => .error u
         | .ok true => .ok (none,
             if entry.is_dir then { entry with process := false } else entry)
         | .ok false =>
           .ok (some ⟨(if entry.is_dir
                 then get_relative_entry_path_name dirRel entry.name ++ [47]
                 else get_relative_entry_path_name dirRel entry.name), .New⟩,
               if entry.is_dir then { entry with process := false } else entry)) := by
  unfold process_new_item
  by_cases h1 : (entry.is_dir &&
      (lookupA index (get_relative_entry_path_name dirRel entry.name)).isSome) = true
  · simp [h1]
  · simp only [h1, if_false]
    cases hig : is_ignored (if entry.is_dir then { entry with process := false } else entry)
        (get_relative_entry_path_name dirRel entry.name) ignores with
    | error u => simp
    | ok b => cases b <;> by_cases hd : entry.is_dir <;> simp [hd]

/-- Closed-form case analysis of `process_tracked_item`. -/
theorem process_tracked_item_eq (entry : ReadDirEntry) (i : DirEntry) (dirRel : List Nat) :
    process_tracked_item entry i dirRel =
      (if entry.is_dir then
        match entry.node with
        | .dir g (some sub) st ch =>
          .ok (submodule_spawned_status (get_relative_entry_path_name dirRel entry.name)
                 i.sha sub,
               { entry with process := false })
        | _ => .error ()
       else if entry.stat ≠ i.stat then
        .ok (some ⟨get_relative_entry_path_name dirRel entry.name, .Modified none⟩, entry)
       else .ok (none, entry)) := by
  unfold process_tracked_item submodule_status
  by_cases hd : entry.is_dir
  · simp only [hd, if_true]
    cases hnode : entry.node with
    | dir g sm st ch => cases sm <;> simp
    | file s => simp
    | errDir => simp
    | childNil => simp
    | childCons n c rest => simp
  · simp [hd]

/-- `process_new_item` returns the entry with its name and node unchanged and
emits (at most) a New entry named by the relative path (with `/` for a
directory). -/
theorem process_new_item_inv {entry : ReadDirEntry} {index : IndexMap}
    {ignores : List Matcher} {dirRel : List Nat} {e? : Option StatusEntry}
    {entry' : ReadDirEntry}
    (h : process_new_item entry index ignores dirRel = .ok (e?, entry')) :
    entry'.name = entry.name ∧ entry'.node = entry.node ∧
    ∀ e, e? = some e → e.state = .New ∧
      (e.name = get_relative_entry_path_name dirRel entry.name ∨
       e.name = get_relative_entry_path_name dirRel entry.name ++ [47]) := by
  rw [process_new_item_eq] at h
  by_cases h1 : (entry.is_dir &&
      (lookupA index (get_relative_entry_path_name dirRel entry.name)).isSome) = true
  · rw [if_pos h1] at h
    simp only [Except.ok.injEq, Prod.mk.injEq] at h
    obtain ⟨he, hent⟩ := h
    subst he
    subst hent
    exact ⟨rfl, rfl, fun e he => by exact absurd he (by simp)⟩
  · rw [if_neg h1] at h
    cases hig : is_ignored (if entry.is_dir then { entry with process := false } else entry)
        (get_relative_entry_path_name dirRel entry.name) ignores with
    | error u => rw [hig] at h; exact absurd h (by simp)
    | ok b =>
      rw [hig] at h
      cases b with
      | true =>
        simp only [Except.ok.injEq, Prod.mk.injEq] at h
        obtain ⟨he, hent⟩ := h
        subst he
        subst hent
        refine ⟨?_, ?_, fun e he => by exact absurd he (by simp)⟩ <;>
          by_cases hd : entry.is_dir <;> simp [hd]
      | false =>
        simp only [Except.ok.injEq, Prod.mk.injEq] at h
        obtain ⟨he, hent⟩ := h
        subst he
        subst hent
        refine ⟨?_, ?_, ?_⟩
        · by_cases hd : entry.is_dir <;> simp [hd]
        · by_cases hd : entry.is_dir <;> simp [hd]
        · intro e he
          injection he with he2
          subst he2
          constructor
          · rfl
          · by_cases hd : entry.is_dir <;> simp [hd]

/-- `process_tracked_item` returns the entry with name and node unchanged and
emits (at most) a `Modified none` entry named by the relative path. -/
theorem process_tracked_item_inv {entry : ReadDirEntry} {i : DirEntry}
    {dirRel : List Nat} {e? : Option StatusEntry} {entry' : ReadDirEntry}
    (h : process_tracked_item entry i dirRel = .ok (e?, entry')) :
    entry'.name = entry.name ∧ entry'.node = entry.node ∧
    ∀ e, e? = some e → e.state = .Modified none ∧
      e.name = get_relative_entry_path_name dirRel entry.name := by
  rw [process_tracked_item_eq] at h
  by_cases hd : entry.is_dir
  · rw [if_pos hd] at h
    cases hnode : entry.node with
    | dir g sm st ch =>
      rw [hnode] at h
      cases sm with
      | none => exact absurd h (by simp)
      | some sub =>
        simp only [Except.ok.injEq, Prod.mk.injEq] at h
        obtain ⟨he, hent⟩ := h
        subst he
        subst hent
        refine ⟨rfl, by simp [hnode], ?_⟩
        intro e he
        have hst := submodule_spawned_status_state he
        refine ⟨hst, ?_⟩
        unfold submodule_spawned_status at he
        split at he
        · injection he with he2
          subst he2
          rfl
        · exact absurd he (by simp)
    | file s => rw [hnode] at h; exact absurd h (by simp)
    | errDir => rw [hnode] at h; exact absurd h (by simp)
    | childNil => rw [hnode] at h; exact absurd h (by simp)
    | childCons n c rest => rw [hnode] at h; exact absurd h (by simp)
  · rw [if_neg hd] at h
    by_cases hs : entry.stat ≠ i.stat
    · rw [if_pos hs] at h
      simp only [Except.ok.injEq, Prod.mk.injEq] at h
      obtain ⟨he, hent⟩ := h
      subst he
      subst hent
      refine ⟨rfl, rfl, ?_⟩
      intro e he
      injection he with he2
      subst he2
      exact ⟨rfl, rfl⟩
    · rw [if_neg hs] at h
      simp only [Except.ok.injEq, Prod.mk.injEq] at h
      obtain ⟨he, hent⟩ := h
      subst he
      subst hent
      exact ⟨rfl, rfl, fun e he => by exact absurd he (by simp)⟩

/-- `process_deleted_item` in closed form. -/
theorem process_deleted_item_eq (i : DirEntry) :
    process_deleted_item i =
      if i.object_type = .GitLink then none else some ⟨i.name, .Deleted⟩ := rfl

/-- The entry an output row was deleted from. -/
def isDeletedEntry (e : StatusEntry) : Bool :=
  match e.state with
  | .Deleted => true
  | _ => false

/-- The trailing `while let Some(i_file)` loop of `get_file_deltas` in closed
form: every remaining index entry that is not a GitLink becomes Deleted under
its leaf name. -/
theorem filterMap_process_deleted_item (is : List DirEntry) :
    is.filterMap process_deleted_item =
      (is.filter (fun i => decide (i.object_type ≠ ObjectType.GitLink))).map
        (fun i => ⟨i.name, .Deleted⟩) := by
  induction is with
  | nil => rfl
  | cons i is ih =>
    by_cases hg : i.object_type = ObjectType.GitLink
    · rw [List.filterMap_cons, List.filter_cons_of_neg (by simp [hg])]
      rw [process_deleted_item_eq, if_pos hg]
      exact ih
    · rw [List.filterMap_cons, List.filter_cons_of_pos (by simp [hg])]
      rw [process_deleted_item_eq, if_neg hg]
      simp only [List.map_cons]
      rw [ih]

theorem pairwise_name_inj {is : List DirEntry}
    (h : List.Pairwise (fun a b : DirEntry => bytesLt a.name b.name = true) is) :
    ∀ a ∈ is, ∀ b ∈ is, a.name = b.name → a = b := by
  induction h with
  | nil => intro a ha; exact absurd ha (by simp)
  | cons hr hp ih =>
    intro a ha b hb hab
    rcases List.mem_cons.mp ha with ha1 | ha2 <;>
      rcases List.mem_cons.mp hb with hb1 | hb2
    · rw [ha1, hb1]
    · subst ha1
      exact absurd hab (bytesLt_ne (hr b hb2))
    · subst hb1
      exact absurd hab.symm (bytesLt_ne (hr a ha2))
    · exact ih a ha2 b hb2 hab

/-- The Deleted rows pushed by `get_file_deltas` are exactly the index-slice
entries whose name is absent from the (sorted) filesystem listing and whose
object type is not GitLink, in slice order and under their leaf names. -/
theorem deltas_deleted_chars (index : IndexMap) (ignores : List Matcher) (dirRel : List Nat) :
    ∀ (fuel : Nat) (ws : List ReadDirEntry) (is : List DirEntry),
      ws.length + is.length ≤ fuel →
      List.Pairwise (fun a b : ReadDirEntry => bytesLt a.name b.name = true) ws →
      List.Pairwise (fun a b : DirEntry => bytesLt a.name b.name = true) is →
      ∀ (es : List StatusEntry) (ws' : List ReadDirEntry),
        get_file_deltas_loop index ignores dirRel fuel ws is = .ok (es, ws') →
        es.filter isDeletedEntry =
          (is.filter (fun i =>
            decide (i.name ∉ ws.map (fun w => w.name) ∧
                    i.object_type ≠ ObjectType.GitLink))).map
            (fun i => ⟨i.name, .Deleted⟩) := by
  have hbase : ∀ is : List DirEntry,
      (is.filterMap process_deleted_item).filter isDeletedEntry =
        (is.filter (fun i =>
          decide (i.name ∉ ([] : List ReadDirEntry).map (fun w => w.name) ∧
                  i.object_type ≠ ObjectType.GitLink))).map
          (fun i => ⟨i.name, (.Deleted : Status)⟩) := by
    intro is
    rw [filterMap_process_deleted_item, List.filter_map]
    have h1 : (is.filter ((fun i => decide (i.object_type ≠ ObjectType.GitLink)))).filter
        (isDeletedEntry ∘ fun i => (⟨i.name, .Deleted⟩ : StatusEntry)) =
        is.filter (fun i => decide (i.object_type ≠ ObjectType.GitLink)) := by
      apply List.filter_eq_self.mpr
      intro a ha
      simp [isDeletedEntry]
    rw [h1]
    congr 1
    apply List.filter_congr
    intro a ha
    simp
  intro fuel
  induction fuel with
  | zero =>
    intro ws is hlen hws his es ws' h
    cases ws with
    | nil =>
      simp only [get_file_deltas_loop, Except.ok.injEq, Prod.mk.injEq] at h
      obtain ⟨h1, h2⟩ := h
      subst h1
      exact hbase is
    | cons w ws => simp at hlen
  | succ fuel ih =>
    intro ws is hlen hws his es ws' h
    cases ws with
    | nil =>
      simp only [get_file_deltas_loop, Except.ok.injEq, Prod.mk.injEq] at h
      obtain ⟨h1, h2⟩ := h
      subst h1
      exact hbase is
    | cons w ws =>
      rw [List.pairwise_cons] at hws
      cases is with
      | nil =>
        simp only [get_file_deltas_loop] at h
        cases hstep : process_new_item w index ignores dirRel with
        | error u => rw [hstep] at h; exact absurd h (by simp)
        | ok p =>
          obtain ⟨e?, w2⟩ := p
          rw [hstep, exc_bind_ok] at h
          cases hrec : get_file_deltas_loop index ignores dirRel fuel ws [] with
          | error u => rw [hrec] at h; exact absurd h (by simp)
          | ok q =>
            obtain ⟨es2, ws2⟩ := q
            rw [hrec, exc_bind_ok] at h
            simp only [Except.ok.injEq, Prod.mk.injEq] at h
            obtain ⟨h1, h2⟩ := h
            subst h1
            rw [List.filter_append]
            have hrec2 := ih ws [] (by simp at hlen ⊢; omega) hws.2 (by simp) es2 ws2 hrec
            rw [hrec2]
            simp only [List.filter_nil, List.map_nil, List.append_nil]
            cases e? with
            | none => simp
            | some e =>
              have hinv := (process_new_item_inv hstep).2.2 e rfl
              simp [isDeletedEntry, hinv.1]
      | cons i is =>
        simp only [get_file_deltas_loop] at h
        have hlen2 : ws.length + (i :: is).length ≤ fuel := by simp at hlen ⊢; omega
        have hlen3 : ws.length + is.length ≤ fuel := by simp at hlen ⊢; omega
        have hlen4 : (w :: ws).length + is.length ≤ fuel := by simp at hlen ⊢; omega
        rw [List.pairwise_cons] at his
        cases hcmp : cmpBytes w.name i.name with
        | eq =>
          rw [hcmp] at h
          have hname : w.name = i.name := cmpBytes_eq_iff.mp hcmp
          cases hstep : process_tracked_item w i dirRel with
          | error u => rw [hstep] at h; exact absurd h (by simp)
          | ok p =>
            obtain ⟨e?, w2⟩ := p
            rw [hstep, exc_bind_ok] at h
            cases hrec : get_file_deltas_loop index ignores dirRel fuel ws is with
            | error u => rw [hrec] at h; exact absurd h (by simp)
            | ok q =>
              obtain ⟨es2, ws2⟩ := q
              rw [hrec, exc_bind_ok] at h
              simp only [Except.ok.injEq, Prod.mk.injEq] at h
              obtain ⟨h1, h2⟩ := h
              subst h1
              rw [List.filter_append]
              rw [ih ws is hlen3 hws.2 his.2 es2 ws2 hrec]
              have hhead : (i :: is).filter (fun i2 =>
                  decide (i2.name ∉ (w :: ws).map (fun w => w.name) ∧
                          i2.object_type ≠ ObjectType.GitLink)) =
                  is.filter (fun i2 =>
                    decide (i2.name ∉ ws.map (fun w => w.name) ∧
                            i2.object_type ≠ ObjectType.GitLink)) := by
                rw [List.filter_cons_of_neg (by simp [hname.symm])]
                apply List.filter_congr
                intro a ha
                have hne : a.name ≠ w.name := by
                  rw [hname]
                  exact fun hx => bytesLt_ne (his.1 a ha) hx.symm
                simp [List.mem_cons, hne]
              rw [hhead]
              cases e? with
              | none => simp
              | some e =>
                have hinv := (process_tracked_item_inv hstep).2.2 e rfl
                simp [isDeletedEntry, hinv.1]
        | lt =>
          rw [hcmp] at h
          have hlt : bytesLt w.name i.name = true := cmpBytes_lt_iff.mp hcmp
          cases hstep : process_new_item w index ignores dirRel with
          | error u => rw [hstep] at h; exact absurd h (by simp)
          | ok p =>
            obtain ⟨e?, w2⟩ := p
            rw [hstep, exc_bind_ok] at h
            cases hrec : get_file_deltas_loop index ignores dirRel fuel ws (i :: is) with
            | error u => rw [hrec] at h; exact absurd h (by simp)
            | ok q =>
              obtain ⟨es2, ws2⟩ := q
              rw [hrec, exc_bind_ok] at h
              simp only [Except.ok.injEq, Prod.mk.injEq] at h
              obtain ⟨h1, h2⟩ := h
              subst h1
              rw [List.filter_append]
              rw [ih ws (i :: is) hlen2 hws.2 (List.pairwise_cons.mpr his) es2 ws2 hrec]
              have hhead : (i :: is).filter (fun i2 =>
                  decide (i2.name ∉ (w :: ws).map (fun w => w.name) ∧
                          i2.object_type ≠ ObjectType.GitLink)) =
                  (i :: is).filter (fun i2 =>
                    decide (i2.name ∉ ws.map (fun w => w.name) ∧
                            i2.object_type ≠ ObjectType.GitLink)) := by
                apply List.filter_congr
                intro a ha
                have haw : bytesLt w.name a.name = true := by
                  rcases List.mem_cons.mp ha with h1 | h2
                  · rw [h1]; exact hlt
                  · exact bytesLt_trans hlt (his.1 a h2)
                have hne : a.name ≠ w.name := fun hx => bytesLt_ne haw hx.symm
                simp [List.mem_cons, hne]
              rw [hhead]
              cases e? with
              | none => simp
              | some e =>
                have hinv := (process_new_item_inv hstep).2.2 e rfl
                simp [isDeletedEntry, hinv.1]
        | gt =>
          rw [hcmp] at h
          have hgt : bytesLt i.name w.name = true := cmpBytes_gt_iff.mp hcmp
          cases hrec : get_file_deltas_loop index ignores dirRel fuel (w :: ws) is with
          | error u => rw [hrec] at h; exact absurd h (by simp)
          | ok q =>
            obtain ⟨es2, ws2⟩ := q
            rw [hrec, exc_bind_ok] at h
            simp only [Except.ok.injEq, Prod.mk.injEq] at h
            obtain ⟨h1, h2⟩ := h
            subst h1
            rw [List.filter_append]
            rw [ih (w :: ws) is hlen4 (List.pairwise_cons.mpr hws) his.2 es2 ws2 hrec]
            have hmiss : i.name ∉ (w :: ws).map (fun w => w.name) := by
              intro hmem
              obtain ⟨w2, hw2, hw2n⟩ := List.mem_map.mp hmem
              rcases List.mem_cons.mp hw2 with h3 | h4
              · subst h3
                exact bytesLt_ne hgt hw2n.symm
              · exact bytesLt_ne (bytesLt_trans hgt (hws.1 w2 h4)) hw2n.symm
            by_cases hgl : i.object_type = ObjectType.GitLink
            · rw [List.filter_cons_of_neg (by simp [hgl])]
              rw [process_deleted_item_eq, if_pos hgl]
              simp
            · rw [List.filter_cons_of_pos
                (by simp only [decide_eq_true_eq]; exact ⟨hmiss, hgl⟩)]
              rw [process_deleted_item_eq, if_neg hgl]
              simp [isDeletedEntry]

/-- Claim C7 (confirmed): in the merge of a sorted listing against a sorted
index slice, every index entry missing from the listing yields a Deleted
entry under its leaf name — except GitLink entries, for which no Deleted
entry is pushed at all. -/
theorem c7_deleted_except_gitlink (index : IndexMap) (ignores : List Matcher)
    (dirRel : List Nat) (ws : List ReadDirEntry) (is : List DirEntry)
    (es : List StatusEntry) (ws' : List ReadDirEntry)
    (hws : List.Pairwise (fun a b : ReadDirEntry => bytesLt a.name b.name = true) ws)
    (his : List.Pairwise (fun a b : DirEntry => bytesLt a.name b.name = true) is)
    (h : get_file_deltas index ignores dirRel ws is = .ok (es, ws'))
    (i : DirEntry) (hi : i ∈ is) (hmiss : i.name ∉ ws.map (fun w => w.name)) :
    (i.object_type ≠ .GitLink → (⟨i.name, .Deleted⟩ : StatusEntry) ∈ es) ∧
    (i.object_type = .GitLink → (⟨i.name, .Deleted⟩ : StatusEntry) ∉ es) := by
  unfold get_file_deltas at h
  have hchar := deltas_deleted_chars index ignores dirRel (ws.length + is.length)
    ws is le_rfl hws his es ws' h
  constructor
  · intro hng
    have hmem : (⟨i.name, Status.Deleted⟩ : StatusEntry) ∈ es.filter isDeletedEntry := by
      rw [hchar]
      exact List.mem_map.mpr ⟨i, List.mem_filter.mpr ⟨hi, by simp [hmiss, hng]⟩, rfl⟩
    exact List.mem_of_mem_filter hmem
  · intro hgl hmem
    have hmem2 : (⟨i.name, Status.Deleted⟩ : StatusEntry) ∈ es.filter isDeletedEntry :=
      List.mem_filter.mpr ⟨hmem, by simp [isDeletedEntry]⟩
    rw [hchar] at hmem2
    obtain ⟨i2, hi2, heq⟩ := List.mem_map.mp hmem2
    have hi2f := List.mem_filter.mp hi2
    have hpred := of_decide_eq_true hi2f.2
    have hname : i2.name = i.name := by injection heq
    have hii : i2 = i := pairwise_name_inj his i2 hi2f.1 i hi hname
    rw [hii] at hpred
    exact hpred.2 hgl

/-- Witness for C7: the slice holding the missing regular file `gone.txt` and
the missing submodule `sub` produces a Deleted row for the former and none
for the latter. -/
theorem c7_deleted_except_gitlink_witness :
    ((⟨strBytes "gone.txt", Status.Deleted⟩ : StatusEntry) ∈
      [(⟨strBytes "gone.txt", Status.Deleted⟩ : StatusEntry)]) ∧
    ((⟨strBytes "sub", Status.Deleted⟩ : StatusEntry) ∉
      [(⟨strBytes "gone.txt", Status.Deleted⟩ : StatusEntry)]) := by
  have h1 := c7_deleted_except_gitlink [] [unmatchedMatcher] [] [] [c7Gone, c7Sub]
    [⟨strBytes "gone.txt", Status.Deleted⟩] [] (by decide) (by decide) rfl
    c7Gone (by decide) (by simp)
  have h2 := c7_deleted_except_gitlink [] [unmatchedMatcher] [] [] [c7Gone, c7Sub]
    [⟨strBytes "gone.txt", Status.Deleted⟩] [] (by decide) (by decide) rfl
    c7Sub (by decide) (by simp)
  exact ⟨h1.1 (by decide), h2.2 rfl⟩

/-! ### C8: where the emitted names come from -/

/-- Membership through `insertByName`. -/
theorem mem_insertByName {x e : ReadDirEntry} {l : List ReadDirEntry} :
    x ∈ insertByName e l ↔ x = e ∨ x ∈ l := by
  induction l with
  | nil => simp [insertByName]
  | cons f fs ih =>
    simp only [insertByName]
    by_cases hc : bytesLt e.name f.name = true
    · rw [if_pos hc]
      simp [List.mem_cons]
    · rw [if_neg hc]
      simp only [List.mem_cons, ih]
      tauto

/-- `sortByName` permutes the listing: membership is unchanged. -/
theorem mem_sortByName {x : ReadDirEntry} {l : List ReadDirEntry} :
    x ∈ sortByName l ↔ x ∈ l := by
  induction l with
  | nil => simp [sortByName]
  | cons f fs ih => simp only [sortByName, mem_insertByName, ih, List.mem_cons]

/-- Every child of a chain contributes its relative path to `fsRelPaths`, and
the relative paths of its own subtree are contained in the chain's. -/
theorem fsRelPaths_sub (rel : List Nat) (ch : FSNode) :
    ∀ p ∈ FSNode.toListing ch,
      joinRel rel p.1 ∈ fsRelPaths rel ch ∧
      ∀ x ∈ fsRelPaths (joinRel rel p.1) p.2, x ∈ fsRelPaths rel ch := by
  induction ch with
  | file s => intro p hp; exact absurd hp (by simp [FSNode.toListing])
  | dir g sm st children ihc => intro p hp; exact absurd hp (by simp [FSNode.toListing])
  | errDir => intro p hp; exact absurd hp (by simp [FSNode.toListing])
  | childNil => intro p hp; exact absurd hp (by simp [FSNode.toListing])
  | childCons n c rest ihc ihr =>
    intro p hp
    have hl : FSNode.toListing (.childCons n c rest) = (n, c) :: FSNode.toListing rest := rfl
    rw [hl] at hp
    have hfe : fsRelPaths rel (.childCons n c rest) =
        joinRel rel n :: (fsRelPaths (joinRel rel n) c ++ fsRelPaths rel rest) := rfl
    rcases List.mem_cons.mp hp with h1 | h2
    · subst h1
      constructor
      · rw [hfe]
        exact List.mem_cons_self _ _
      · intro x hx
        rw [hfe]
        exact List.mem_cons.mpr (Or.inr (List.mem_append.mpr (Or.inl hx)))
    · obtain ⟨hm, hs⟩ := ihr p h2
      constructor
      · rw [hfe]
        exact List.mem_cons.mpr (Or.inr (List.mem_append.mpr (Or.inr hm)))
      · intro x hx
        rw [hfe]
        exact List.mem_cons.mpr (Or.inr (List.mem_append.mpr (Or.inr (hs x hx))))

/-- Every entry of a slice stored in the map carries one of the map's leaf
names. -/
theorem lookupA_names_sub (d : List Nat) :
    ∀ (m : IndexMap) (v : List DirEntry), lookupA m d = some v →
      ∀ e ∈ v, e.name ∈ indexLeafNames m := by
  intro m
  induction m with
  | nil => intro v h; exact absurd h (by simp [lookupA])
  | cons kv rest ih =>
    intro v h e he
    obtain ⟨k, w⟩ := kv
    simp only [lookupA] at h
    have hsplit : indexLeafNames ((k, w) :: rest) =
        w.map (fun x => x.name) ++ indexLeafNames rest := rfl
    by_cases hk : k = d
    · rw [if_pos hk] at h
      injection h with h1
      subst h1
      rw [hsplit]
      exact List.mem_append.mpr (Or.inl (List.mem_map.mpr ⟨e, he, rfl⟩))
    · rw [if_neg hk] at h
      rw [hsplit]
      exact List.mem_append.mpr (Or.inr (ih v h e he))

/-- Every entry pushed by the merge loop is named either from a listing entry
(its relative path, possibly with a trailing `/`) or from an index-slice
entry (its leaf name). -/
theorem deltas_names_bound (index : IndexMap) (ignores : List Matcher) (dirRel : List Nat) :
    ∀ (fuel : Nat) (ws : List ReadDirEntry) (is : List DirEntry)
      (es : List StatusEntry) (ws2 : List ReadDirEntry),
      get_file_deltas_loop index ignores dirRel fuel ws is = .ok (es, ws2) →
      ∀ e ∈ es,
        (∃ w ∈ ws, e.name = get_relative_entry_path_name dirRel w.name ∨
            e.name = get_relative_entry_path_name dirRel w.name ++ [47]) ∨
        ∃ i ∈ is, e.name = i.name := by
  have hbase : ∀ (is : List DirEntry) (e : StatusEntry),
      e ∈ is.filterMap process_deleted_item → ∃ i ∈ is, e.name = i.name := by
    intro is e he
    obtain ⟨i, hi, hf⟩ := List.mem_filterMap.mp he
    refine ⟨i, hi, ?_⟩
    rw [process_deleted_item_eq] at hf
    split at hf
    · exact absurd hf (by simp)
    · injection hf with h1
      rw [← h1]
  intro fuel
  induction fuel with
  | zero =>
    intro ws is es ws2 h e he
    cases ws with
    | nil =>
      simp only [get_file_deltas_loop, Except.ok.injEq, Prod.mk.injEq] at h
      obtain ⟨h1, h2⟩ := h
      subst h1
      exact Or.inr (hbase is e he)
    | cons w ws =>
      simp only [get_file_deltas_loop, Except.ok.injEq, Prod.mk.injEq] at h
      obtain ⟨h1, h2⟩ := h
      subst h1
      exact absurd he (by simp)
  | succ fuel ih =>
    intro ws is es ws2 h e he
    cases ws with
    | nil =>
      simp only [get_file_deltas_loop, Except.ok.injEq, Prod.mk.injEq] at h
      obtain ⟨h1, h2⟩ := h
      subst h1
      exact Or.inr (hbase is e he)
    | cons w ws =>
      cases is with
      | nil =>
        simp only [get_file_deltas_loop] at h
        cases hstep : process_new_item w index ignores dirRel with
        | error u => rw [hstep] at h; exact absurd h (by simp)
        | ok p =>
          obtain ⟨e?, w2⟩ := p
          rw [hstep, exc_bind_ok] at h
          cases hrec : get_file_deltas_loop index ignores dirRel fuel ws [] with
          | error u => rw [hrec] at h; exact absurd h (by simp)
          | ok q =>
            obtain ⟨es2, ws3⟩ := q
            rw [hrec, exc_bind_ok] at h
            simp only [Except.ok.injEq, Prod.mk.injEq] at h
            obtain ⟨h1, h2⟩ := h
            subst h1
            rcases List.mem_append.mp he with he1 | he2
            · cases e? with
              | none => exact absurd he1 (by simp)
              | some e0 =>
                have he0 : e = e0 := by simpa using he1
                subst he0
                have hinv := (process_new_item_inv hstep).2.2 e rfl
                exact Or.inl ⟨w, List.mem_cons_self _ _, hinv.2⟩
            · rcases ih ws [] es2 ws3 hrec e he2 with h3 | h4
              · obtain ⟨w3, hw3, hn⟩ := h3
                exact Or.inl ⟨w3, List.mem_cons.mpr (Or.inr hw3), hn⟩
              · obtain ⟨i, hi, hn⟩ := h4
                exact absurd hi (by simp)
      | cons i is =>
        simp only [get_file_deltas_loop] at h
        cases hcmp : cmpBytes w.name i.name with
        | eq =>
          rw [hcmp] at h
          cases hstep : process_tracked_item w i dirRel with
          | error u => rw [hstep] at h; exact absurd h (by simp)
          | ok p =>
            obtain ⟨e?, w2⟩ := p
            rw [hstep, exc_bind_ok] at h
            cases hrec : get_file_deltas_loop index ignores dirRel fuel ws is with
            | error u => rw [hrec] at h; exact absurd h (by simp)
            | ok q =>
              obtain ⟨es2, ws3⟩ := q
              rw [hrec, exc_bind_ok] at h
              simp only [Except.ok.injEq, Prod.mk.injEq] at h
              obtain ⟨h1, h2⟩ := h
              subst h1
              rcases List.mem_append.mp he with he1 | he2
              · cases e? with
                | none => exact absurd he1 (by simp)
                | some e0 =>
                  have he0 : e = e0 := by simpa using he1
                  subst he0
                  have hinv := (process_tracked_item_inv hstep).2.2 e rfl
                  exact Or.inl ⟨w, List.mem_cons_self _ _, Or.inl hinv.2⟩
              · rcases ih ws is es2 ws3 hrec e he2 with h3 | h4
                · obtain ⟨w3, hw3, hn⟩ := h3
                  exact Or.inl ⟨w3, List.mem_cons.mpr (Or.inr hw3), hn⟩
                · obtain ⟨i2, hi2, hn⟩ := h4
                  exact Or.inr ⟨i2, List.mem_cons.mpr (Or.inr hi2), hn⟩
        | lt =>
          rw [hcmp] at h
          cases hstep : process_new_item w index ignores dirRel with
          | error u => rw [hstep] at h; exact absurd h (by simp)
          | ok p =>
            obtain ⟨e?, w2⟩ := p
            rw [hstep, exc_bind_ok] at h
            cases hrec : get_file_deltas_loop index ignores dirRel fuel ws (i :: is) with
            | error u => rw [hrec] at h; exact absurd h (by simp)
            | ok q =>
              obtain ⟨es2, ws3⟩ := q
              rw [hrec, exc_bind_ok] at h
              simp only [Except.ok.injEq, Prod.mk.injEq] at h
              obtain ⟨h1, h2⟩ := h
              subst h1
              rcases List.mem_append.mp he with he1 | he2
              · cases e? with
                | none => exact absurd he1 (by simp)
                | some e0 =>
                  have he0 : e = e0 := by simpa using he1
                  subst he0
                  have hinv := (process_new_item_inv hstep).2.2 e rfl
                  exact Or.inl ⟨w, List.mem_cons_self _ _, hinv.2⟩
              · rcases ih ws (i :: is) es2 ws3 hrec e he2 with h3 | h4
                · obtain ⟨w3, hw3, hn⟩ := h3
                  exact Or.inl ⟨w3, List.mem_cons.mpr (Or.inr hw3), hn⟩
                · exact Or.inr h4
        | gt =>
          rw [hcmp] at h
          cases hrec : get_file_deltas_loop index ignores dirRel fuel (w :: ws) is with
          | error u => rw [hrec] at h; exact absurd h (by simp)
          | ok q =>
            obtain ⟨es2, ws3⟩ := q
            rw [hrec, exc_bind_ok] at h
            simp only [Except.ok.injEq, Prod.mk.injEq] at h
            obtain ⟨h1, h2⟩ := h
            subst h1
            rcases List.mem_append.mp he with he1 | he2
            · rw [process_deleted_item_eq] at he1
              by_cases hgl : i.object_type = ObjectType.GitLink
              · rw [if_pos hgl] at he1
                exact absurd he1 (by simp)
              · rw [if_neg hgl] at he1
                have he0 : e = ⟨i.name, .Deleted⟩ := by simpa using he1
                exact Or.inr ⟨i, List.mem_cons_self _ _, by rw [he0]⟩
            · rcases ih (w :: ws) is es2 ws3 hrec e he2 with h3 | h4
              · exact Or.inl h3
              · obtain ⟨i2, hi2, hn⟩ := h4
                exact Or.inr ⟨i2, List.mem_cons.mpr (Or.inr hi2), hn⟩

/-- The merge loop returns listing entries with their names and nodes
unchanged (only the `process` flags may be cleared). -/
theorem deltas_preserves_entries (index : IndexMap) (ignores : List Matcher)
    (dirRel : List Nat) :
    ∀ (fuel : Nat) (ws : List ReadDirEntry) (is : List DirEntry)
      (es : List StatusEntry) (ws2 : List ReadDirEntry),
      get_file_deltas_loop index ignores dirRel fuel ws is = .ok (es, ws2) →
      ∀ w2 ∈ ws2, ∃ w ∈ ws, w2.name = w.name ∧ w2.node = w.node := by
  intro fuel
  induction fuel with
  | zero =>
    intro ws is es ws2 h w2 hw2
    cases ws with
    | nil =>
      simp only [get_file_deltas_loop, Except.ok.injEq, Prod.mk.injEq] at h
      obtain ⟨h1, h2⟩ := h
      subst h2
      exact absurd hw2 (by simp)
    | cons w ws =>
      simp only [get_file_deltas_loop, Except.ok.injEq, Prod.mk.injEq] at h
      obtain ⟨h1, h2⟩ := h
      subst h2
      exact absurd hw2 (by simp)
  | succ fuel ih =>
    intro ws is es ws2 h w2 hw2
    cases ws with
    | nil =>
      simp only [get_file_deltas_loop, Except.ok.injEq, Prod.mk.injEq] at h
      obtain ⟨h1, h2⟩ := h
      subst h2
      exact absurd hw2 (by simp)
    | cons w ws =>
      cases is with
      | nil =>
        simp only [get_file_deltas_loop] at h
        cases hstep : process_new_item w index ignores dirRel with
        | error u => rw [hstep] at h; exact absurd h (by simp)
        | ok p =>
          obtain ⟨e?, w3⟩ := p
          rw [hstep, exc_bind_ok] at h
          cases hrec : get_file_deltas_loop index ignores dirRel fuel ws [] with
          | error u => rw [hrec] at h; exact absurd h (by simp)
          | ok q =>
            obtain ⟨es2, ws3⟩ := q
            rw [hrec, exc_bind_ok] at h
            simp only [Except.ok.injEq, Prod.mk.injEq] at h
            obtain ⟨h1, h2⟩ := h
            subst h2
            rcases List.mem_cons.mp hw2 with hh | ht
            · subst hh
              have hinv := process_new_item_inv hstep
              exact ⟨w, List.mem_cons_self _ _, hinv.1, hinv.2.1⟩
            · obtain ⟨w4, hw4, hn⟩ := ih ws [] es2 ws3 hrec w2 ht
              exact ⟨w4, List.mem_cons.mpr (Or.inr hw4), hn⟩
      | cons i is =>
        simp only [get_file_deltas_loop] at h
        cases hcmp : cmpBytes w.name i.name with
        | eq =>
          rw [hcmp] at h
          cases hstep : process_tracked_item w i dirRel with
          | error u => rw [hstep] at h; exact absurd h (by simp)
          | ok p =>
            obtain ⟨e?, w3⟩ := p
            rw [hstep, exc_bind_ok] at h
            cases hrec : get_file_deltas_loop index ignores dirRel fuel ws is with
            | error u => rw [hrec] at h; exact absurd h (by simp)
            | ok q =>
              obtain ⟨es2, ws3⟩ := q
              rw [hrec, exc_bind_ok] at h
              simp only [Except.ok.injEq, Prod.mk.injEq] at h
              obtain ⟨h1, h2⟩ := h
              subst h2
              rcases List.mem_cons.mp hw2 with hh | ht
              · subst hh
                have hinv := process_tracked_item_inv hstep
                exact ⟨w, List.mem_cons_self _ _, hinv.1, hinv.2.1⟩
              · obtain ⟨w4, hw4, hn⟩ := ih ws is es2 ws3 hrec w2 ht
                exact ⟨w4, List.mem_cons.mpr (Or.inr hw4), hn⟩
        | lt =>
          rw [hcmp] at h
          cases hstep : process_new_item w index ignores dirRel with
          | error u => rw [hstep] at h; exact absurd h (by simp)
          | ok p =>
            obtain ⟨e?, w3⟩ := p
            rw [hstep, exc_bind_ok] at h
            cases hrec : get_file_deltas_loop index ignores dirRel fuel ws (i :: is) with
            | error u => rw [hrec] at h; exact absurd h (by simp)
            | ok q =>
              obtain ⟨es2, ws3⟩ := q
              rw [hrec, exc_bind_ok] at h
              simp only [Except.ok.injEq, Prod.mk.injEq] at h
              obtain ⟨h1, h2⟩ := h
              subst h2
              rcases List.mem_cons.mp hw2 with hh | ht
              · subst hh
                have hinv := process_new_item_inv hstep
                exact ⟨w, List.mem_cons_self _ _, hinv.1, hinv.2.1⟩
              · obtain ⟨w4, hw4, hn⟩ := ih ws (i :: is) es2 ws3 hrec w2 ht
                exact ⟨w4, List.mem_cons.mpr (Or.inr hw4), hn⟩
        | gt =>
          rw [hcmp] at h
          cases hrec : get_file_deltas_loop index ignores dirRel fuel (w :: ws) is with
          | error u => rw [hrec] at h; exact absurd h (by simp)
          | ok q =>
            obtain ⟨es2, ws3⟩ := q
            rw [hrec, exc_bind_ok] at h
            simp only [Except.ok.injEq, Prod.mk.injEq] at h
            obtain ⟨h1, h2⟩ := h
            subst h2
            exact ih (w :: ws) is es2 ws3 hrec w2 hw2

/-- `process_directory` names its emissions from the listing (relative paths,
possibly slash-terminated) or from the index's leaf names, and returns the
listing entries with names and nodes unchanged. -/
theorem process_directory_inv {index : IndexMap} {ignores : List Matcher}
    {dirRel : List Nat} {gitignore : Option Matcher} {entries : List ReadDirEntry}
    {es : List StatusEntry} {entries2 : List ReadDirEntry} {ig2 : List Matcher}
    (h : process_directory index ignores dirRel gitignore entries =
      .ok (es, entries2, ig2)) :
    (∀ e ∈ es,
      (∃ w ∈ entries, e.name = get_relative_entry_path_name dirRel w.name ∨
          e.name = get_relative_entry_path_name dirRel w.name ++ [47]) ∨
      e.name ∈ indexLeafNames index) ∧
    ∀ f ∈ entries2, ∃ w ∈ entries, f.name = w.name ∧ f.node = w.node := by
  unfold process_directory at h
  cases hl : lookupA index dirRel with
  | none =>
    rw [hl] at h
    simp only [Except.ok.injEq, Prod.mk.injEq] at h
    obtain ⟨h1, h2, h3⟩ := h
    subst h1
    subst h2
    exact ⟨fun e he => absurd he (by simp), fun f hf => ⟨f, hf, rfl, rfl⟩⟩
  | some slice =>
    rw [hl] at h
    simp only [] at h
    cases hd : get_file_deltas index (update_ignores gitignore ignores) dirRel entries
        slice with
    | error u => rw [hd] at h; exact absurd h (by simp)
    | ok q =>
      obtain ⟨es3, entries3⟩ := q
      rw [hd] at h
      simp only [exc_bind_ok, Except.ok.injEq, Prod.mk.injEq] at h
      obtain ⟨h1, h2, h3⟩ := h
      subst h1
      subst h2
      unfold get_file_deltas at hd
      constructor
      · intro e he
        rcases deltas_names_bound index (update_ignores gitignore ignores) dirRel
            (entries.length + slice.length) entries slice es3 entries3 hd e he with h4 | h5
        · exact Or.inl h4
        · obtain ⟨i, hi, hn⟩ := h5
          rw [hn]
          exact Or.inr (lookupA_names_sub dirRel index slice hl i hi)
      · intro f hf
        exact deltas_preserves_entries index (update_ignores gitignore ignores) dirRel
          (entries.length + slice.length) entries slice es3 entries3 hd f hf

/-- The spawned-children loop: every name in its output obeys the bound of
one of the spawned children, provided the recursive walk obeys it. -/
theorem read_dir_spawned_names (index : IndexMap) (fuel : Nat) (ig2 : List Matcher)
    (dirRel : List Nat)
    (hg : ∀ (igs : List Matcher) (rel : List Nat) (nd : FSNode) (es : List StatusEntry),
      read_dir index fuel igs rel nd = .ok es →
      ∀ e ∈ es, e.name ∈ fsRelPaths rel nd ∨
        e.name ∈ (fsRelPaths rel nd).map (fun p => p ++ [47]) ∨
        e.name ∈ indexLeafNames index) :
    ∀ (fs : List ReadDirEntry) (es : List StatusEntry),
      read_dir_spawned (fun rel nd => read_dir index fuel ig2 rel nd) dirRel fs = .ok es →
      ∀ e ∈ es, ∃ f ∈ fs,
        e.name ∈ fsRelPaths (joinRel dirRel f.name) f.node ∨
        e.name ∈ (fsRelPaths (joinRel dirRel f.name) f.node).map (fun p => p ++ [47]) ∨
        e.name ∈ indexLeafNames index := by
  intro fs
  induction fs with
  | nil =>
    intro es h e he
    simp only [read_dir_spawned, Except.ok.injEq] at h
    subst h
    exact absurd he (by simp)
  | cons f fs ihf =>
    intro es h e he
    simp only [read_dir_spawned] at h
    cases h1 : read_dir index fuel ig2 (joinRel dirRel f.name) f.node with
    | error u => rw [h1] at h; exact absurd h (by simp)
    | ok es1 =>
      rw [h1] at h
      simp only [exc_bind_ok] at h
      cases h2 : read_dir_spawned (fun rel nd => read_dir index fuel ig2 rel nd) dirRel
          fs with
      | error u => rw [h2] at h; exact absurd h (by simp)
      | ok es2 =>
        rw [h2] at h
        simp only [exc_bind_ok, Except.ok.injEq] at h
        subst h
        rcases List.mem_append.mp he with he1 | he2
        · exact ⟨f, List.mem_cons_self _ _,
            hg ig2 (joinRel dirRel f.name) f.node es1 h1 e he1⟩
        · obtain ⟨f2, hf2, hb⟩ := ihf es2 h2 e he2
          exact ⟨f2, List.mem_cons.mpr (Or.inr hf2), hb⟩

/-- Induction core for C8: every name emitted by the walk is the relative
path of an item of the visited subtree, such a path with a trailing `/`, or
the leaf name of an index entry. -/
theorem read_dir_names_aux (index : IndexMap) :
    ∀ (fuel : Nat) (ignores : List Matcher) (dirRel : List Nat) (node : FSNode)
      (es : List StatusEntry),
      read_dir index fuel ignores dirRel node = .ok es →
      ∀ e ∈ es, e.name ∈ fsRelPaths dirRel node ∨
        e.name ∈ (fsRelPaths dirRel node).map (fun p => p ++ [47]) ∨
        e.name ∈ indexLeafNames index := by
  intro fuel
  induction fuel with
  | zero =>
    intro ignores dirRel node es h e he
    simp only [read_dir, Except.ok.injEq] at h
    subst h
    exact absurd he (by simp)
  | succ fuel ih =>
    intro ignores dirRel node es h e he
    cases node with
    | file s => simp only [read_dir] at h; exact absurd h (by simp)
    | errDir => simp only [read_dir] at h; exact absurd h (by simp)
    | childNil => simp only [read_dir] at h; exact absurd h (by simp)
    | childCons n c rest => simp only [read_dir] at h; exact absurd h (by simp)
    | dir g sm st children =>
      simp only [read_dir] at h
      set files0 := sortByName
        ((children.toListing.filter (fun c => c.1 ≠ strBytes ".git")).map toReadDirEntry)
        with hf0
      have hfiles : ∀ w ∈ files0, ∃ p ∈ FSNode.toListing children,
          w.name = p.1 ∧ w.node = p.2 := by
        intro w hw
        rw [hf0, mem_sortByName] at hw
        obtain ⟨p, hp, hpe⟩ := List.mem_map.mp hw
        refine ⟨p, List.mem_of_mem_filter hp, ?_, ?_⟩ <;> rw [← hpe] <;> rfl
      cases hpd : process_directory index ignores dirRel g files0 with
      | error u => rw [hpd] at h; exact absurd h (by simp)
      | ok t =>
        obtain ⟨es0, files1, ig1⟩ := t
        rw [hpd] at h
        simp only [exc_bind_ok] at h
        cases hsp : read_dir_spawned (fun rel nd => read_dir index fuel ig1 rel nd) dirRel
            (files1.filter (fun f => f.is_dir && f.process)) with
        | error u => rw [hsp] at h; exact absurd h (by simp)
        | ok es2 =>
          rw [hsp] at h
          simp only [exc_bind_ok, Except.ok.injEq] at h
          subst h
          have hfs : fsRelPaths dirRel (FSNode.dir g sm st children) =
              fsRelPaths dirRel children := rfl
          rw [hfs]
          obtain ⟨hnames, hpres⟩ := process_directory_inv hpd
          rcases List.mem_append.mp he with he1 | he2
          · rcases hnames e he1 with h3 | h4
            · obtain ⟨w, hw, hn⟩ := h3
              obtain ⟨p, hp, hwn, hwd⟩ := hfiles w hw
              have hsub := fsRelPaths_sub dirRel children p hp
              rcases hn with hn1 | hn2
              · left
                rw [hn1, get_relative_entry_path_name, hwn]
                exact hsub.1
              · right
                left
                rw [hn2, get_relative_entry_path_name, hwn]
                exact List.mem_map.mpr ⟨joinRel dirRel p.1, hsub.1, rfl⟩
            · exact Or.inr (Or.inr h4)
          · obtain ⟨f, hf, hb⟩ := read_dir_spawned_names index fuel ig1 dirRel ih
              (files1.filter (fun f => f.is_dir && f.process)) es2 hsp e he2
            have hf1 : f ∈ files1 := List.mem_of_mem_filter hf
            obtain ⟨w, hw, hfn, hfd⟩ := hpres f hf1
            obtain ⟨p, hp, hwn, hwd⟩ := hfiles w hw
            have hsub := fsRelPaths_sub dirRel children p hp
            have hname : joinRel dirRel f.name = joinRel dirRel p.1 := by rw [hfn, hwn]
            have hnode : f.node = p.2 := by rw [hfd, hwd]
            rcases hb with hb1 | hb2 | hb3
            · left
              rw [hname, hnode] at hb1
              exact hsub.2 e.name hb1
            · right
              left
              rw [hname, hnode] at hb2
              obtain ⟨x, hx, hxe⟩ := List.mem_map.mp hb2
              exact List.mem_map.mpr ⟨x, hsub.2 x hx, hxe⟩
            · exact Or.inr (Or.inr hb3)

/-- Claim C8 (corrected): every name carried by an emitted status entry is
the repository-relative path of an item encountered during the walk, such a
path with a trailing `/` (New directories), or the **leaf name** of an index
entry (Deleted rows) — not necessarily a tracked path or an encountered
filesystem path, as the claim stated. -/
theorem c8_names_in_paths_or_leaves (index : IndexMap) (fuel : Nat)
    (ignores : List Matcher) (dirRel : List Nat) (node : FSNode)
    (es : List StatusEntry) (h : read_dir index fuel ignores dirRel node = .ok es)
    (e : StatusEntry) (he : e ∈ es) :
    e.name ∈ fsRelPaths dirRel node ∨
    e.name ∈ (fsRelPaths dirRel node).map (fun p => p ++ [47]) ∨
    e.name ∈ indexLeafNames index :=
  read_dir_names_aux index fuel ignores dirRel node es h e he

/-- Witness for C8 (amended): on the C8 scenario the Deleted row `file.txt`
exemplifies the leaf-name disjunct. -/
theorem c8_names_in_paths_or_leaves_witness :
    (read_dir c8Index 3 [unmatchedMatcher] [] c8Tree = .ok c8Output) ∧
    ((⟨strBytes "file.txt", Status.Deleted⟩ : StatusEntry).name ∈ fsRelPaths [] c8Tree ∨
     (⟨strBytes "file.txt", Status.Deleted⟩ : StatusEntry).name ∈
       (fsRelPaths [] c8Tree).map (fun p => p ++ [47]) ∨
     (⟨strBytes "file.txt", Status.Deleted⟩ : StatusEntry).name ∈
       indexLeafNames c8Index) := by
  refine ⟨rfl, ?_⟩
  exact c8_names_in_paths_or_leaves c8Index 3 [unmatchedMatcher] [] c8Tree c8Output rfl
    ⟨strBytes "file.txt", Status.Deleted⟩ (by decide)

/-- Counterexample for C8 as stated: the walk on the C8 scenario (index
tracks `a/file.txt`, which is missing; untracked directory `d` holds a file)
emits `file.txt` — a bare leaf name, not the tracked path `a/file.txt` — and
`d/` — a slash-terminated name that is no filesystem path.  Neither name lies
in tracked-paths ∪ encountered-filesystem-paths. -/
theorem c8_counterexample :
    diff_against_index 3 unmatchedMatcher c8Index c8Tree = .ok (.ok c8Output) ∧
    (⟨strBytes "d/", Status.New⟩ : StatusEntry) ∈ c8Output ∧
    (⟨strBytes "file.txt", Status.Deleted⟩ : StatusEntry) ∈ c8Output ∧
    strBytes "d/" ∉ trackedPaths c8Index ++ fsRelPaths [] c8Tree ∧
    strBytes "file.txt" ∉ trackedPaths c8Index ++ fsRelPaths [] c8Tree := by
  exact ⟨rfl, by decide, by decide, by decide, by decide⟩

end WinGitStatus
